import Mathlib

/-!
# X86 mnemonic tables emitter

A shallow embedding of `X86MnemonicTablesEmitter::run`
(`llvm/utils/TableGen/X86MnemonicTables.cpp`) and theorems about the map it
builds and the text it writes.

The output stream is a `String` that grows by appending, one append for every
`<<` of the source.  The collaborators of the emitter that live in other files
(`emitSourceFileHeader`, `X86Disassembler::getMnemonic`, the iteration order of
`StringMap`) are parameters of the embedding.
-/

namespace X86MnemonicTables

/-! ## Data model -/

/-- Modelled from the spec: the sentinel `X86Local::PrefixByte` of the
encoding-form enumeration, declared in `X86RecognizableInstr.h` (not part of
this file).  Forms are the enumeration's underlying numbers; only the
distinctness of this value from the other forms matters. -/
def X86Local.PrefixByte : Nat := 10

/-- One instruction as the emitter sees it: the record behind a
`const CodeGenInstruction *` together with the two fields that
`RecognizableInstrBase RI(*I)` computes from it. -/
structure CodeGenInstruction where
  /-- The definition name, `TheDef->getName()`. -/
  Name : String
  /-- The record field `Def->getValueAsString("AsmVariantName")`. -/
  AsmVariantName : String
  /-- The assembly string, which mnemonic derivation reads. -/
  AsmString : String
  /-- The encoding form, `RI.Form`. -/
  Form : Nat
  /-- The eligibility flag, `RI.ShouldBeEmitted`. -/
  ShouldBeEmitted : Bool
deriving DecidableEq, Repr

/-- The map `StringMap<SmallVector<const CodeGenInstruction *, 0>>`, kept as
its entries in order of first insertion. -/
abbrev StringMap := List (String × List CodeGenInstruction)

/-- The statement `Map[Key].push_back(I)`: `operator[]` finds the entry of
`Key`, creating it with an empty vector when there is none, and `I` is
appended to the vector of that entry. -/
def StringMap.pushBack : StringMap → String → CodeGenInstruction → StringMap
  | [], Key, I => [(Key, [I])]
  | (K, V) :: rest, Key, I =>
      if K = Key then (K, V ++ [I]) :: rest
      else (K, V) :: StringMap.pushBack rest Key I

/-- The value read by `Map[Key]`: the vector stored under `Key`, and the
empty vector for a key that has no entry. -/
def StringMap.subscript : StringMap → String → List CodeGenInstruction
  | [], _ => []
  | (K, V) :: rest, Key => if K = Key then V else StringMap.subscript rest Key

/-- The keys present in the map, in order of first insertion. -/
def StringMap.insertedKeys (Map : StringMap) : List String :=
  Map.map Prod.fst

/-- The order in which `StringMap::keys()` enumerates a table.  The hash table
visits every present key exactly once, in an order fixed by the keys inserted;
the emitter has no influence on it, so it is a parameter. -/
structure IterationOrder where
  /-- From the keys in insertion order to the keys in iteration order. -/
  enumerate : List String → List String
  /-- Iteration visits each key once. -/
  perm : ∀ Keys : List String, (enumerate Keys).Perm Keys

/-- The keys of the map as `Map.keys()` yields them. -/
def StringMap.keys (ord : IterationOrder) (Map : StringMap) : List String :=
  ord.enumerate (StringMap.insertedKeys Map)

/-- Iteration in order of first insertion. -/
def insertionOrder : IterationOrder :=
  ⟨fun Keys => Keys, fun Keys => List.Perm.refl Keys⟩

/-- Iteration in reverse order of first insertion. -/
def reverseOrder : IterationOrder :=
  ⟨fun Keys => Keys.reverse, fun Keys => List.reverse_perm Keys⟩

/-! ## The grouping loop -/

/-- The three exclusion tests of the loop body: an instruction goes on to
mnemonic derivation when neither `continue` is taken. -/
def passesFilter (I : CodeGenInstruction) : Bool :=
  if !I.ShouldBeEmitted then false
  else if I.AsmVariantName = "NonParsable" || I.Form = X86Local.PrefixByte then false
  else true

/-- The loop over `NumberedInstructions`, started on the map `Map`.  A failing
derivation ends the run with its error. -/
def groupLoop {ε : Type} (getMnemonic : CodeGenInstruction → Nat → Except ε String)
    (Variant : Nat) : List CodeGenInstruction → StringMap → Except ε StringMap
  | [], Map => .ok Map
  | I :: rest, Map =>
      if !I.ShouldBeEmitted then groupLoop getMnemonic Variant rest Map
      else if I.AsmVariantName = "NonParsable" || I.Form = X86Local.PrefixByte then
        groupLoop getMnemonic Variant rest Map
      else
        match getMnemonic I Variant with
        | .error e => .error e
        | .ok Mnemonic =>
            groupLoop getMnemonic Variant rest (StringMap.pushBack Map Mnemonic I)

/-- The map `MnemonicToCGInstrMap` after the loop: the loop run on the empty
map. -/
def MnemonicToCGInstrMap {ε : Type}
    (getMnemonic : CodeGenInstruction → Nat → Except ε String) (Variant : Nat)
    (NumberedInstructions : List CodeGenInstruction) : Except ε StringMap :=
  groupLoop getMnemonic Variant NumberedInstructions []

/-- The instructions on which the loop calls `getMnemonic`, in the order of
the calls: the loop body with its call site recorded.  A failing call is the
last one, since it ends the run. -/
def derivationCalls {ε : Type} (getMnemonic : CodeGenInstruction → Nat → Except ε String)
    (Variant : Nat) : List CodeGenInstruction → List CodeGenInstruction
  | [] => []
  | I :: rest =>
      if !I.ShouldBeEmitted then derivationCalls getMnemonic Variant rest
      else if I.AsmVariantName = "NonParsable" || I.Form = X86Local.PrefixByte then
        derivationCalls getMnemonic Variant rest
      else
        match getMnemonic I Variant with
        | .error _ => [I]
        | .ok _ => I :: derivationCalls getMnemonic Variant rest

/-! ## Emission -/

/-- The body of the first loop over the keys: one forward declaration. -/
def emitDeclaration (OS : String) (Mnemonic : String) : String :=
  OS ++ "bool is" ++ Mnemonic ++ "(unsigned Opcode);\n"

/-- The body of the second loop over the keys: one function definition, an
equality test for a vector of size one and a switch otherwise. -/
def emitDefinition (Map : StringMap) (OS : String) (Mnemonic : String) : String :=
  let OS := OS ++ "bool is" ++ Mnemonic ++ "(unsigned Opcode) \x7b\n"
  let Mnemonics := StringMap.subscript Map Mnemonic
  if Mnemonics.length = 1 then
    match Mnemonics with
    | CGI :: _ => OS ++ "\treturn Opcode == " ++ CGI.Name ++ ";\n\x7d\n\n"
    | [] => OS
  else
    let OS := OS ++ "\tswitch (Opcode) \x7b\n"
    let OS := Mnemonics.foldl (fun OS CGI => OS ++ "\tcase " ++ CGI.Name ++ ":\n") OS
    OS ++ "\t\treturn true;\n\t\x7d\n\treturn false;\n\x7d\n\n"

/-- What a run leaves behind: the text on the output stream and the error that
ended the run, if one did. -/
structure RunResult (ε : Type) where
  /-- The content of the output stream when the run ends. -/
  OS : String
  /-- The error of the failing derivation, `none` for a completed run. -/
  error : Option ε

/-- The emitter `X86MnemonicTablesEmitter::run`, on the stream content `OS`. -/
def run {ε : Type} (emitSourceFileHeader : String → String) (ord : IterationOrder)
    (getMnemonic : CodeGenInstruction → Nat → Except ε String) (Variant : Nat)
    (NumberedInstructions : List CodeGenInstruction) (OS : String) : RunResult ε :=
  let OS := OS ++ emitSourceFileHeader "X86 Mnemonic tables"
  let OS := OS ++ "namespace llvm \x7b\nnamespace X86 \x7b\n\n"
  match groupLoop getMnemonic Variant NumberedInstructions [] with
  | .error e => ⟨OS, some e⟩
  | .ok Map =>
      let OS := OS ++ "#ifdef GET_X86_MNEMONIC_TABLES_H\n"
      let OS := OS ++ "#undef GET_X86_MNEMONIC_TABLES_H\n\n"
      let OS := (StringMap.keys ord Map).foldl emitDeclaration OS
      let OS := OS ++ "#endif // GET_X86_MNEMONIC_TABLES_H\n\n"
      let OS := OS ++ "#ifdef GET_X86_MNEMONIC_TABLES_CPP\n"
      let OS := OS ++ "#undef GET_X86_MNEMONIC_TABLES_CPP\n\n"
      let OS := (StringMap.keys ord Map).foldl (emitDefinition Map) OS
      let OS := OS ++ "#endif // GET_X86_MNEMONIC_TABLES_CPP\n\n"
      let OS := OS ++ "\x7d // end namespace X86\n\x7d // end namespace llvm"
      ⟨OS, none⟩

/-! ## Vocabulary of the statements -/

/-- The mnemonic of an instruction whose derivation succeeds (the empty string
stands in where it fails). -/
def derivedKey {ε : Type} (getMnemonic : CodeGenInstruction → Nat → Except ε String)
    (Variant : Nat) (I : CodeGenInstruction) : String :=
  match getMnemonic I Variant with
  | .ok Mnemonic => Mnemonic
  | .error _ => ""

/-- Appending the instructions of a list to the map, each under its key. -/
def insertAll (key : CodeGenInstruction → String) (l : List CodeGenInstruction)
    (Map : StringMap) : StringMap :=
  l.foldl (fun Map I => StringMap.pushBack Map (key I) I) Map

/-- Whether derivation succeeds on `D` with the mnemonic `M`. -/
def derivesTo {ε : Type} (getMnemonic : CodeGenInstruction → Nat → Except ε String)
    (Variant : Nat) (M : String) (D : CodeGenInstruction) : Bool :=
  match getMnemonic D Variant with
  | .ok Mnemonic => decide (Mnemonic = M)
  | .error _ => false

/-! ## The emitted predicates read as C++ -/

/-- The two statement shapes the emitter writes as the body of a predicate,
read as C++ over opcodes named by their definition names. -/
inductive PredicateBody where
  /-- The statement `return Opcode == Name;`. -/
  | returnEq (Name : String)
  /-- A `switch (Opcode)` whose case labels all fall through to one
  `return true;`, followed by `return false;`. -/
  | switchCases (Labels : List String)
deriving DecidableEq, Repr

/-- The value the body returns on an opcode: the equality test, and for the
switch `true` when control jumps to one of the labels and `false` when no label
matches and control passes the switch. -/
def PredicateBody.eval : PredicateBody → String → Bool
  | .returnEq Name, Opcode => decide (Opcode = Name)
  | .switchCases Labels, Opcode => Labels.any (fun Label => decide (Opcode = Label))

/-- The body the emitter chooses for a vector of instructions: the size test of
the second loop. -/
def predicateOf (Mnemonics : List CodeGenInstruction) : PredicateBody :=
  if Mnemonics.length = 1 then
    match Mnemonics with
    | CGI :: _ => .returnEq CGI.Name
    | [] => .switchCases []
  else .switchCases (Mnemonics.map (fun CGI => CGI.Name))

/-- The text of a body as the second loop writes it, the closing brace of the
function included. -/
def PredicateBody.text : PredicateBody → String
  | .returnEq Name => "\treturn Opcode == " ++ Name ++ ";\n\x7d\n\n"
  | .switchCases Labels =>
      "\tswitch (Opcode) \x7b\n" ++
        String.join (Labels.map (fun Label => "\tcase " ++ Label ++ ":\n")) ++
        "\t\treturn true;\n\t\x7d\n\treturn false;\n\x7d\n\n"

/-- The text one declaration adds to the stream. -/
def declarationText (Mnemonic : String) : String :=
  emitDeclaration "" Mnemonic

/-- The text one definition adds to the stream. -/
def definitionText (Map : StringMap) (Mnemonic : String) : String :=
  emitDefinition Map "" Mnemonic

/-! ## Lines of the output -/

/-- The pieces of a text between its newline characters. -/
def splitLines : List Char → List (List Char)
  | [] => [[]]
  | c :: cs =>
      if c = '\n' then [] :: splitLines cs
      else
        match splitLines cs with
        | [] => [[c]]
        | L :: Ls => (c :: L) :: Ls

/-- The lines of a text. -/
def linesOf (Text : String) : List String :=
  (splitLines Text.data).map String.mk

/-- An identifier fragment: letters, digits and underscores only. -/
def isIdentifierFragment (s : String) : Bool :=
  s.data.all (fun c => c.isAlphanum || c = '_')

/-- A preprocessor directive: a line that starts with `#`. -/
def isDirective (Line : String) : Bool :=
  Line.data.head? = some '#'

/-- The line of one declaration. -/
def declarationLine (Mnemonic : String) : String :=
  "bool is" ++ Mnemonic ++ "(unsigned Opcode);"

/-- The lines of a body and of the closing brace of its function, the blank
line after it included. -/
def PredicateBody.lines : PredicateBody → List String
  | .returnEq Name => ["\treturn Opcode == " ++ Name ++ ";", "\x7d", ""]
  | .switchCases Labels =>
      ["\tswitch (Opcode) \x7b"] ++ Labels.map (fun Label => "\tcase " ++ Label ++ ":") ++
        ["\t\treturn true;", "\t\x7d", "\treturn false;", "\x7d", ""]

/-- The lines of one definition. -/
def definitionLines (Map : StringMap) (Mnemonic : String) : List String :=
  ("bool is" ++ Mnemonic ++ "(unsigned Opcode) \x7b") ::
    (predicateOf (StringMap.subscript Map Mnemonic)).lines

/-- The definition names a body mentions. -/
def PredicateBody.names : PredicateBody → List String
  | .returnEq Name => [Name]
  | .switchCases Labels => Labels

/-- The shapes of the lines the two loops over the keys write: blank, a lone
closing brace, or a line that starts with `b` or with a tab. -/
def isLoopLine (Line : String) : Bool :=
  Line = "" || Line = "\x7d" || Line.data.head? = some 'b' || Line.data.head? = some '\t'

/-! ## The end-to-end example -/

/-- Example instruction: `ADD`, register to register. -/
def exampleADD32rr : CodeGenInstruction := ⟨"ADD32rr", "", "add\t$dst, $src", 3, true⟩

/-- Example instruction: `ADD`, register to memory. -/
def exampleADD32mr : CodeGenInstruction := ⟨"ADD32mr", "", "add\t$dst, $src", 4, true⟩

/-- Example instruction: `MOV`, register to register. -/
def exampleMOV32rr : CodeGenInstruction := ⟨"MOV32rr", "", "mov\t$dst, $src", 3, true⟩

/-- Example instruction: a prefix byte. -/
def exampleRexByte : CodeGenInstruction := ⟨"REX_PREFIX", "", "rex", X86Local.PrefixByte, true⟩

/-- The four instructions of the end-to-end example: two forms of `ADD`, one of
`MOV`, and a prefix byte. -/
def exampleInstructions : List CodeGenInstruction :=
  [exampleADD32rr, exampleADD32mr, exampleMOV32rr, exampleRexByte]

/-- A derivation function for the example: the mnemonic is looked up by
definition name, and no mnemonic is known for a prefix byte. -/
def exampleGetMnemonic (I : CodeGenInstruction) (_Variant : Nat) : Except String String :=
  if I.Name = "ADD32rr" ∨ I.Name = "ADD32mr" then .ok "ADD"
  else if I.Name = "MOV32rr" then .ok "MOV"
  else .error ("no mnemonic for " ++ I.Name)

/-- The map the loop builds from the example input. -/
def exampleMap : StringMap :=
  [("ADD", [exampleADD32rr, exampleADD32mr]), ("MOV", [exampleMOV32rr])]

/-- The output of the example after the file header, when `ADD` is iterated
before `MOV`. -/
def exampleTextAddFirst : String :=
  "namespace llvm \x7b\nnamespace X86 \x7b\n\n" ++
  "#ifdef GET_X86_MNEMONIC_TABLES_H\n#undef GET_X86_MNEMONIC_TABLES_H\n\n" ++
  "bool isADD(unsigned Opcode);\nbool isMOV(unsigned Opcode);\n" ++
  "#endif // GET_X86_MNEMONIC_TABLES_H\n\n" ++
  "#ifdef GET_X86_MNEMONIC_TABLES_CPP\n#undef GET_X86_MNEMONIC_TABLES_CPP\n\n" ++
  "bool isADD(unsigned Opcode) \x7b\n\tswitch (Opcode) \x7b\n" ++
  "\tcase ADD32rr:\n\tcase ADD32mr:\n\t\treturn true;\n\t\x7d\n\treturn false;\n\x7d\n\n" ++
  "bool isMOV(unsigned Opcode) \x7b\n\treturn Opcode == MOV32rr;\n\x7d\n\n" ++
  "#endif // GET_X86_MNEMONIC_TABLES_CPP\n\n" ++
  "\x7d // end namespace X86\n\x7d // end namespace llvm"

/-- The output of the example after the file header, when `MOV` is iterated
before `ADD`. -/
def exampleTextMovFirst : String :=
  "namespace llvm \x7b\nnamespace X86 \x7b\n\n" ++
  "#ifdef GET_X86_MNEMONIC_TABLES_H\n#undef GET_X86_MNEMONIC_TABLES_H\n\n" ++
  "bool isMOV(unsigned Opcode);\nbool isADD(unsigned Opcode);\n" ++
  "#endif // GET_X86_MNEMONIC_TABLES_H\n\n" ++
  "#ifdef GET_X86_MNEMONIC_TABLES_CPP\n#undef GET_X86_MNEMONIC_TABLES_CPP\n\n" ++
  "bool isMOV(unsigned Opcode) \x7b\n\treturn Opcode == MOV32rr;\n\x7d\n\n" ++
  "bool isADD(unsigned Opcode) \x7b\n\tswitch (Opcode) \x7b\n" ++
  "\tcase ADD32rr:\n\tcase ADD32mr:\n\t\treturn true;\n\t\x7d\n\treturn false;\n\x7d\n\n" ++
  "#endif // GET_X86_MNEMONIC_TABLES_CPP\n\n" ++
  "\x7d // end namespace X86\n\x7d // end namespace llvm"

/-- Example instruction that passes the filter and for which the example
derivation knows no mnemonic. -/
def exampleUnknown : CodeGenInstruction := ⟨"FOO32rr", "", "foo\t$dst", 3, true⟩

/-- A stand-in for `emitSourceFileHeader`: a one-line banner. -/
def exampleHeader (Desc : String) : String :=
  "/* " ++ Desc ++ " */\n"

/-! ## The map operations and the grouping loop -/

theorem passesFilter_iff (I : CodeGenInstruction) :
    passesFilter I = true ↔
      I.ShouldBeEmitted = true ∧ I.AsmVariantName ≠ "NonParsable" ∧
        I.Form ≠ X86Local.PrefixByte := by
  unfold passesFilter
  cases hS : I.ShouldBeEmitted <;> by_cases hA : I.AsmVariantName = "NonParsable" <;>
    by_cases hF : I.Form = X86Local.PrefixByte <;> simp [hA, hF]

theorem subscript_pushBack (Map : StringMap) (Key Key' : String) (I : CodeGenInstruction) :
    StringMap.subscript (StringMap.pushBack Map Key I) Key' =
      if Key = Key' then StringMap.subscript Map Key' ++ [I]
      else StringMap.subscript Map Key' := by
  induction Map with
  | nil =>
    by_cases h : Key = Key' <;> simp [StringMap.pushBack, StringMap.subscript, h]
  | cons G rest ih =>
    obtain ⟨K, V⟩ := G
    by_cases hK : K = Key
    · subst hK
      by_cases h : K = Key' <;> simp [StringMap.pushBack, StringMap.subscript, h]
    · by_cases h : Key = Key'
      · subst h
        simp [StringMap.pushBack, StringMap.subscript, hK, ih]
      · by_cases hK' : K = Key'
        · subst hK'
          simp [StringMap.pushBack, StringMap.subscript, hK, h]
        · simp [StringMap.pushBack, StringMap.subscript, hK, hK', h, ih]

theorem insertedKeys_pushBack (Map : StringMap) (Key : String) (I : CodeGenInstruction) :
    StringMap.insertedKeys (StringMap.pushBack Map Key I) =
      if Key ∈ StringMap.insertedKeys Map then StringMap.insertedKeys Map
      else StringMap.insertedKeys Map ++ [Key] := by
  induction Map with
  | nil => simp [StringMap.pushBack, StringMap.insertedKeys]
  | cons G rest ih =>
    obtain ⟨K, V⟩ := G
    unfold StringMap.insertedKeys at ih ⊢
    by_cases hK : K = Key
    · simp [StringMap.pushBack, hK]
    · have hK' : ¬ Key = K := fun h => hK h.symm
      by_cases hmem : Key ∈ List.map Prod.fst rest
      · simp [StringMap.pushBack, hK, hK', ih, hmem]
      · simp [StringMap.pushBack, hK, hK', ih, hmem]

theorem insertedKeys_pushBack_nodup (Map : StringMap) (Key : String) (I : CodeGenInstruction)
    (h : (StringMap.insertedKeys Map).Nodup) :
    (StringMap.insertedKeys (StringMap.pushBack Map Key I)).Nodup := by
  rw [insertedKeys_pushBack]
  split
  · exact h
  · rename_i hmem
    rw [List.nodup_append]
    refine ⟨h, List.nodup_singleton _, ?_⟩
    intro a ha hb
    simp at hb
    subst hb
    exact hmem ha

theorem mem_insertedKeys_pushBack (Map : StringMap) (Key Key' : String)
    (I : CodeGenInstruction) :
    Key' ∈ StringMap.insertedKeys (StringMap.pushBack Map Key I) ↔
      Key' = Key ∨ Key' ∈ StringMap.insertedKeys Map := by
  rw [insertedKeys_pushBack]
  split
  · rename_i hmem
    constructor
    · exact fun h => Or.inr h
    · rintro (h | h)
      · exact h ▸ hmem
      · exact h
  · simp [or_comm]

/-- With unique keys, an entry of the map is a present key with the vector
that `Map[Key]` reads. -/
theorem mem_iff_subscript (Map : StringMap) (h : (StringMap.insertedKeys Map).Nodup)
    (Key : String) (V : List CodeGenInstruction) :
    (Key, V) ∈ Map ↔ Key ∈ StringMap.insertedKeys Map ∧ StringMap.subscript Map Key = V := by
  induction Map with
  | nil => simp [StringMap.insertedKeys]
  | cons G rest ih =>
    obtain ⟨K, W⟩ := G
    unfold StringMap.insertedKeys at h ih ⊢
    simp only [List.map_cons, List.nodup_cons] at h
    have ih := ih h.2
    by_cases hK : K = Key
    · subst hK
      have hno : ∀ V, (K, V) ∉ rest := fun V hV => h.1 (List.mem_map.2 ⟨(K, V), hV, rfl⟩)
      simp [StringMap.subscript, hno, eq_comm]
    · have hK' : ¬ Key = K := fun e => hK e.symm
      simp [StringMap.subscript, hK, hK', ih]

theorem subscript_insertAll (key : CodeGenInstruction → String) (l : List CodeGenInstruction)
    (Map : StringMap) (Key : String) :
    StringMap.subscript (insertAll key l Map) Key =
      StringMap.subscript Map Key ++ l.filter (fun I => decide (key I = Key)) := by
  induction l generalizing Map with
  | nil => simp [insertAll]
  | cons I rest ih =>
    have ih := ih (StringMap.pushBack Map (key I) I)
    unfold insertAll at ih ⊢
    rw [List.foldl_cons, ih, subscript_pushBack]
    by_cases h : key I = Key <;> simp [h, List.filter_cons]

theorem insertedKeys_insertAll_nodup (key : CodeGenInstruction → String)
    (l : List CodeGenInstruction) (Map : StringMap)
    (h : (StringMap.insertedKeys Map).Nodup) :
    (StringMap.insertedKeys (insertAll key l Map)).Nodup := by
  induction l generalizing Map with
  | nil => simpa [insertAll] using h
  | cons I rest ih =>
    have ih := ih (StringMap.pushBack Map (key I) I) (insertedKeys_pushBack_nodup Map _ I h)
    unfold insertAll at ih ⊢
    rw [List.foldl_cons]
    exact ih

theorem mem_insertedKeys_insertAll (key : CodeGenInstruction → String)
    (l : List CodeGenInstruction) (Map : StringMap) (Key : String) :
    Key ∈ StringMap.insertedKeys (insertAll key l Map) ↔
      Key ∈ StringMap.insertedKeys Map ∨ ∃ I ∈ l, key I = Key := by
  induction l generalizing Map with
  | nil => simp [insertAll]
  | cons I rest ih =>
    have ih := ih (StringMap.pushBack Map (key I) I)
    unfold insertAll at ih ⊢
    rw [List.foldl_cons, ih, mem_insertedKeys_pushBack]
    constructor
    · rintro ((h | h) | ⟨J, hJ, hk⟩)
      · exact Or.inr ⟨I, List.mem_cons_self _ _, h.symm⟩
      · exact Or.inl h
      · exact Or.inr ⟨J, List.mem_cons_of_mem _ hJ, hk⟩
    · rintro (h | ⟨J, hJ, hk⟩)
      · exact Or.inl (Or.inr h)
      · rcases List.mem_cons.1 hJ with rfl | hJ
        · exact Or.inl (Or.inl hk.symm)
        · exact Or.inr ⟨J, hJ, hk⟩

/-- When derivation succeeds on every instruction that passes the filter, the
loop completes and its map is the fold of `pushBack` over the filtered input. -/
theorem groupLoop_ok {ε : Type} (getMnemonic : CodeGenInstruction → Nat → Except ε String)
    (Variant : Nat) (l : List CodeGenInstruction) (Map : StringMap)
    (hderive : ∀ I ∈ l, passesFilter I = true → ∃ M, getMnemonic I Variant = .ok M) :
    groupLoop getMnemonic Variant l Map =
      .ok (insertAll (derivedKey getMnemonic Variant) (l.filter passesFilter) Map) := by
  induction l generalizing Map with
  | nil => simp [groupLoop, insertAll]
  | cons I rest ih =>
    have hrest : ∀ J ∈ rest, passesFilter J = true → ∃ M, getMnemonic J Variant = .ok M :=
      fun J hJ => hderive J (List.mem_cons_of_mem _ hJ)
    by_cases hp : passesFilter I = true
    · obtain ⟨M, hM⟩ := hderive I (List.mem_cons_self _ _) hp
      have hp' := (passesFilter_iff I).1 hp
      have hkey : derivedKey getMnemonic Variant I = M := by simp [derivedKey, hM]
      rw [groupLoop]
      simp only [hp'.1, hp'.2.1, hp'.2.2, hM, List.filter_cons, hp]
      simp [ih _ hrest, insertAll, hkey]
    · have hp' := hp
      rw [passesFilter_iff] at hp'
      rw [groupLoop]
      by_cases hS : I.ShouldBeEmitted = true
      · have hor : I.AsmVariantName = "NonParsable" ∨ I.Form = X86Local.PrefixByte := by
          by_contra hcon
          push_neg at hcon
          exact hp' ⟨hS, hcon.1, hcon.2⟩
        simp [hS, hor, List.filter_cons, hp, ih _ hrest]
      · simp [hS, List.filter_cons, hp, ih _ hrest]

theorem derivedKey_eq {ε : Type} {getMnemonic : CodeGenInstruction → Nat → Except ε String}
    {Variant : Nat} {I : CodeGenInstruction} {M : String}
    (h : getMnemonic I Variant = .ok M) : derivedKey getMnemonic Variant I = M := by
  simp [derivedKey, h]

/-- The entries of the map built from the empty map: a key derived from some
instruction of the list, with the instructions of that key in list order. -/
theorem mem_insertAll_nil (key : CodeGenInstruction → String) (F : List CodeGenInstruction)
    (K : String) (V : List CodeGenInstruction) :
    (K, V) ∈ insertAll key F [] ↔
      (∃ I ∈ F, key I = K) ∧ V = F.filter (fun I => decide (key I = K)) := by
  have hnodup : (StringMap.insertedKeys (insertAll key F [])).Nodup :=
    insertedKeys_insertAll_nodup key F [] (by simp [StringMap.insertedKeys])
  rw [mem_iff_subscript _ hnodup, mem_insertedKeys_insertAll, subscript_insertAll]
  simp [StringMap.insertedKeys, StringMap.subscript, eq_comm]

theorem buildMap_ok {ε : Type} (getMnemonic : CodeGenInstruction → Nat → Except ε String)
    (Variant : Nat) (l : List CodeGenInstruction)
    (hderive : ∀ I ∈ l, passesFilter I = true → ∃ M, getMnemonic I Variant = .ok M) :
    MnemonicToCGInstrMap getMnemonic Variant l =
      .ok (insertAll (derivedKey getMnemonic Variant) (l.filter passesFilter) []) :=
  groupLoop_ok getMnemonic Variant l [] hderive

/-- On instructions that pass the filter of an input on which derivation
succeeds, having the derived key `M` is deriving to `M`. -/
theorem filter_derivedKey_eq {ε : Type}
    (getMnemonic : CodeGenInstruction → Nat → Except ε String)
    (Variant : Nat) (l : List CodeGenInstruction)
    (hderive : ∀ I ∈ l, passesFilter I = true → ∃ M, getMnemonic I Variant = .ok M)
    (M : String) :
    (l.filter passesFilter).filter (fun I => decide (derivedKey getMnemonic Variant I = M)) =
      l.filter (fun D => passesFilter D && derivesTo getMnemonic Variant M D) := by
  rw [List.filter_filter]
  apply List.filter_congr
  intro I hI
  by_cases hp : passesFilter I = true
  · obtain ⟨K, hK⟩ := hderive I hI hp
    simp [hp, derivesTo, derivedKey, hK]
  · simp [hp]

/-! ## The groups of the built map -/

/-- C1, filtering correctness: when derivation succeeds on the descriptors
that pass the filter, the loop builds a map, and a descriptor of the input is a
member of some group of that map if and only if its `ShouldBeEmitted` flag is
set, its `AsmVariantName` is not `NonParsable` and its form is not
`PrefixByte`. -/
theorem filtering_correctness {ε : Type}
    (getMnemonic : CodeGenInstruction → Nat → Except ε String) (Variant : Nat)
    (l : List CodeGenInstruction)
    (hderive : ∀ I ∈ l, passesFilter I = true → ∃ M, getMnemonic I Variant = .ok M)
    (D : CodeGenInstruction) (hD : D ∈ l) :
    ∃ Map, MnemonicToCGInstrMap getMnemonic Variant l = .ok Map ∧
      ((∃ G ∈ Map, D ∈ G.2) ↔
        (D.ShouldBeEmitted = true ∧ D.AsmVariantName ≠ "NonParsable" ∧
          D.Form ≠ X86Local.PrefixByte)) := by
  refine ⟨_, buildMap_ok getMnemonic Variant l hderive, ?_⟩
  rw [← passesFilter_iff]
  constructor
  · rintro ⟨⟨K, V⟩, hG, hDV⟩
    rw [mem_insertAll_nil] at hG
    have hDV' : D ∈ V := hDV
    rw [hG.2] at hDV'
    have := (List.mem_filter.1 hDV').1
    exact (List.mem_filter.1 this).2
  · intro hp
    have hF : D ∈ l.filter passesFilter := List.mem_filter.2 ⟨hD, hp⟩
    refine ⟨(derivedKey getMnemonic Variant D, _), (mem_insertAll_nil _ _ _ _).2
      ⟨⟨D, hF, rfl⟩, rfl⟩, ?_⟩
    exact List.mem_filter.2 ⟨hF, by simp⟩

theorem exampleGetMnemonic_ok :
    ∀ I ∈ exampleInstructions, passesFilter I = true →
      ∃ M, exampleGetMnemonic I 0 = .ok M := by
  intro I hI hp
  simp only [exampleInstructions, List.mem_cons, List.mem_singleton, List.not_mem_nil,
    or_false] at hI
  rcases hI with rfl | rfl | rfl | rfl
  · exact ⟨"ADD", rfl⟩
  · exact ⟨"ADD", rfl⟩
  · exact ⟨"MOV", rfl⟩
  · exact absurd hp (by decide)

/-- The filtering theorem on the example input, at the prefix byte. -/
theorem filtering_correctness_witness :
    (∀ I ∈ exampleInstructions, passesFilter I = true →
      ∃ M, exampleGetMnemonic I 0 = .ok M) ∧
    exampleRexByte ∈ exampleInstructions ∧
    ∃ Map, MnemonicToCGInstrMap exampleGetMnemonic 0 exampleInstructions = .ok Map ∧
      ((∃ G ∈ Map, exampleRexByte ∈ G.2) ↔
        (exampleRexByte.ShouldBeEmitted = true ∧
          exampleRexByte.AsmVariantName ≠ "NonParsable" ∧
          exampleRexByte.Form ≠ X86Local.PrefixByte)) :=
  ⟨exampleGetMnemonic_ok, by simp [exampleInstructions],
    filtering_correctness exampleGetMnemonic 0 exampleInstructions exampleGetMnemonic_ok
      exampleRexByte (by simp [exampleInstructions])⟩

/-- In a list without repetition, a test that singles out one member holds
of exactly one position. -/
theorem countP_eq_one_of_unique {α : Type} (p : α → Bool) (a : α) (l : List α)
    (hnd : l.Nodup) (ha : a ∈ l) (hp : ∀ x ∈ l, p x = true ↔ x = a) :
    l.countP p = 1 := by
  induction l with
  | nil => cases ha
  | cons x xs ih =>
    rw [List.nodup_cons] at hnd
    by_cases hx : x = a
    · subst hx
      have hpx : p x = true := (hp x (List.mem_cons_self _ _)).2 rfl
      have hzero : xs.countP p = 0 := by
        rw [List.countP_eq_zero]
        intro y hy hpy
        have : y = x := (hp y (List.mem_cons_of_mem _ hy)).1 hpy
        exact hnd.1 (this ▸ hy)
      rw [List.countP_cons_of_pos _ _ hpx, hzero]
    · have hpx : ¬ p x = true := fun h => hx ((hp x (List.mem_cons_self _ _)).1 h)
      have ha' : a ∈ xs := by
        rcases List.mem_cons.1 ha with h | h
        · exact absurd h.symm hx
        · exact h
      rw [List.countP_cons_of_neg _ _ hpx]
      exact ih hnd.2 ha' (fun y hy => hp y (List.mem_cons_of_mem _ hy))

/-- C2, partition property: on an input of pairwise distinct descriptors on
which derivation succeeds for the descriptors that pass the filter, the loop
builds a map in which a descriptor that passes the filter lies in exactly one
group; that group is keyed by the descriptor's derived mnemonic and lists the
descriptor exactly once; and no descriptor at all lies in two groups. -/
theorem partition_property {ε : Type}
    (getMnemonic : CodeGenInstruction → Nat → Except ε String) (Variant : Nat)
    (l : List CodeGenInstruction) (hnodup : l.Nodup)
    (hderive : ∀ I ∈ l, passesFilter I = true → ∃ M, getMnemonic I Variant = .ok M)
    (D : CodeGenInstruction) (hD : D ∈ l) (hpass : passesFilter D = true) :
    ∃ Map M, MnemonicToCGInstrMap getMnemonic Variant l = .ok Map ∧
      getMnemonic D Variant = .ok M ∧
      Map.countP (fun G => decide (D ∈ G.2)) = 1 ∧
      (∀ G ∈ Map, D ∈ G.2 → G.1 = M ∧ G.2.count D = 1) ∧
      (∀ (E : CodeGenInstruction) (G G2 : String × List CodeGenInstruction),
        G ∈ Map → G2 ∈ Map → E ∈ G.2 → E ∈ G2.2 → G = G2) := by
  obtain ⟨M, hM⟩ := hderive D hD hpass
  have hkey := derivedKey_eq hM
  have hF : D ∈ l.filter passesFilter := List.mem_filter.2 ⟨hD, hpass⟩
  have hFnd : (l.filter passesFilter).Nodup := hnodup.filter _
  have hkeys : (StringMap.insertedKeys (insertAll (derivedKey getMnemonic Variant)
      (l.filter passesFilter) [])).Nodup :=
    insertedKeys_insertAll_nodup _ _ [] (by simp [StringMap.insertedKeys])
  have hMapnd : (insertAll (derivedKey getMnemonic Variant)
      (l.filter passesFilter) []).Nodup := List.Nodup.of_map _ hkeys
  -- a group that holds an instruction is the group of that instruction's key
  have hgroup : ∀ (E : CodeGenInstruction) (G : String × List CodeGenInstruction),
      G ∈ insertAll (derivedKey getMnemonic Variant) (l.filter passesFilter) [] →
      E ∈ G.2 →
      G = (derivedKey getMnemonic Variant E, (l.filter passesFilter).filter
        (fun I => decide (derivedKey getMnemonic Variant I = derivedKey getMnemonic Variant E))) := by
    rintro E ⟨K, V⟩ hG hE
    rw [mem_insertAll_nil] at hG
    have hE' : E ∈ V := hE
    rw [hG.2] at hE'
    have hk : derivedKey getMnemonic Variant E = K := by
      simpa using (List.mem_filter.1 hE').2
    subst hk
    rw [hG.2]
  have hG0 : (M, (l.filter passesFilter).filter
      (fun I => decide (derivedKey getMnemonic Variant I = M))) ∈
      insertAll (derivedKey getMnemonic Variant) (l.filter passesFilter) [] :=
    (mem_insertAll_nil _ _ _ _).2 ⟨⟨D, hF, hkey⟩, rfl⟩
  have hDG0 : D ∈ (l.filter passesFilter).filter
      (fun I => decide (derivedKey getMnemonic Variant I = M)) :=
    List.mem_filter.2 ⟨hF, by simp [hkey]⟩
  refine ⟨_, M, buildMap_ok getMnemonic Variant l hderive, hM, ?_, ?_, ?_⟩
  · apply countP_eq_one_of_unique _ _ _ hMapnd hG0
    intro G hG
    constructor
    · intro h
      have := hgroup D G hG (by simpa using h)
      rw [hkey] at this
      exact this
    · intro h
      rw [h]
      simpa using hDG0
  · intro G hG hDG
    have := hgroup D G hG hDG
    rw [hkey] at this
    rw [this]
    exact ⟨rfl, List.count_eq_one_of_mem (hFnd.filter _) hDG0⟩
  · intro E G G2 hG hG2 hE hE2
    rw [hgroup E G hG hE, hgroup E G2 hG2 hE2]

/-- The partition theorem on the example input, at `ADD32mr`. -/
theorem partition_property_witness :
    exampleInstructions.Nodup ∧
    (∀ I ∈ exampleInstructions, passesFilter I = true →
      ∃ M, exampleGetMnemonic I 0 = .ok M) ∧
    exampleADD32mr ∈ exampleInstructions ∧ passesFilter exampleADD32mr = true ∧
    ∃ Map M, MnemonicToCGInstrMap exampleGetMnemonic 0 exampleInstructions = .ok Map ∧
      exampleGetMnemonic exampleADD32mr 0 = .ok M ∧
      Map.countP (fun G => decide (exampleADD32mr ∈ G.2)) = 1 ∧
      (∀ G ∈ Map, exampleADD32mr ∈ G.2 → G.1 = M ∧ G.2.count exampleADD32mr = 1) ∧
      (∀ (E : CodeGenInstruction) (G G2 : String × List CodeGenInstruction),
        G ∈ Map → G2 ∈ Map → E ∈ G.2 → E ∈ G2.2 → G = G2) :=
  ⟨by decide, exampleGetMnemonic_ok, by simp [exampleInstructions], by decide,
    partition_property exampleGetMnemonic 0 exampleInstructions (by decide)
      exampleGetMnemonic_ok exampleADD32mr (by simp [exampleInstructions]) (by decide)⟩

/-- C3, stable grouping: when derivation succeeds on the descriptors that pass
the filter, the loop builds a map in which the list of every group, and the
list read under every mnemonic, is the input with everything removed that
fails the filter or derives another mnemonic, in input order; the members of a
group therefore stand in the order they had in the input. -/
theorem stable_grouping {ε : Type}
    (getMnemonic : CodeGenInstruction → Nat → Except ε String) (Variant : Nat)
    (l : List CodeGenInstruction)
    (hderive : ∀ I ∈ l, passesFilter I = true → ∃ M, getMnemonic I Variant = .ok M) :
    ∃ Map, MnemonicToCGInstrMap getMnemonic Variant l = .ok Map ∧
      (∀ G ∈ Map, G.2 =
        l.filter (fun D => passesFilter D && derivesTo getMnemonic Variant G.1 D)) ∧
      (∀ M : String, StringMap.subscript Map M =
        l.filter (fun D => passesFilter D && derivesTo getMnemonic Variant M D)) ∧
      (∀ G ∈ Map, G.2.Sublist l) := by
  have hentry : ∀ G ∈ insertAll (derivedKey getMnemonic Variant) (l.filter passesFilter) [],
      G.2 = l.filter (fun D => passesFilter D && derivesTo getMnemonic Variant G.1 D) := by
    rintro ⟨K, V⟩ hG
    rw [mem_insertAll_nil] at hG
    rw [← filter_derivedKey_eq getMnemonic Variant l hderive K]
    exact hG.2
  refine ⟨_, buildMap_ok getMnemonic Variant l hderive, hentry, ?_, ?_⟩
  · intro M
    rw [subscript_insertAll, ← filter_derivedKey_eq getMnemonic Variant l hderive M]
    simp [StringMap.subscript]
  · intro G hG
    rw [hentry G hG]
    exact List.filter_sublist l

/-- The stable-grouping theorem on the example input. -/
theorem stable_grouping_witness :
    (∀ I ∈ exampleInstructions, passesFilter I = true →
      ∃ M, exampleGetMnemonic I 0 = .ok M) ∧
    ∃ Map, MnemonicToCGInstrMap exampleGetMnemonic 0 exampleInstructions = .ok Map ∧
      (∀ G ∈ Map, G.2 = exampleInstructions.filter
        (fun D => passesFilter D && derivesTo exampleGetMnemonic 0 G.1 D)) ∧
      (∀ M : String, StringMap.subscript Map M = exampleInstructions.filter
        (fun D => passesFilter D && derivesTo exampleGetMnemonic 0 M D)) ∧
      (∀ G ∈ Map, G.2.Sublist exampleInstructions) :=
  ⟨exampleGetMnemonic_ok,
    stable_grouping exampleGetMnemonic 0 exampleInstructions exampleGetMnemonic_ok⟩

/-! ## The text of the two loops over the keys -/

theorem join_cons (s : String) (ss : List String) :
    String.join (s :: ss) = s ++ String.join ss := by
  apply String.ext
  simp [String.data_join]

theorem join_append (ss ts : List String) :
    String.join (ss ++ ts) = String.join ss ++ String.join ts := by
  apply String.ext
  simp [String.data_join]

/-- A loop that appends one text per element writes the concatenation of the
texts. -/
theorem foldl_append_eq {α : Type} (f : α → String) (l : List α) (OS : String) :
    l.foldl (fun OS a => OS ++ f a) OS = OS ++ String.join (l.map f) := by
  induction l generalizing OS with
  | nil => simp [String.join]
  | cons a rest ih =>
    rw [List.foldl_cons, ih, List.map_cons, join_cons, String.append_assoc]

theorem emitDeclaration_eq (OS Mnemonic : String) :
    emitDeclaration OS Mnemonic = OS ++ declarationText Mnemonic := by
  simp only [declarationText, emitDeclaration, String.append_assoc, String.empty_append]

theorem caseLabels_eq (Mnemonics : List CodeGenInstruction) (OS : String) :
    Mnemonics.foldl (fun OS CGI => OS ++ "\tcase " ++ CGI.Name ++ ":\n") OS =
      OS ++ String.join (Mnemonics.map (fun CGI => "\tcase " ++ CGI.Name ++ ":\n")) := by
  rw [← foldl_append_eq]
  congr 1
  funext OS CGI
  simp only [String.append_assoc]

/-- The definition written for a key: the signature line, then the text of
the body chosen for the vector stored under the key. -/
theorem emitDefinition_eq (Map : StringMap) (OS Mnemonic : String) :
    emitDefinition Map OS Mnemonic =
      OS ++ "bool is" ++ Mnemonic ++ "(unsigned Opcode) \x7b\n" ++
        (predicateOf (StringMap.subscript Map Mnemonic)).text := by
  unfold emitDefinition predicateOf
  simp only []
  by_cases hlen : (StringMap.subscript Map Mnemonic).length = 1
  · rw [if_pos hlen, if_pos hlen]
    cases hsub : StringMap.subscript Map Mnemonic with
    | nil => rw [hsub] at hlen; simp at hlen
    | cons CGI rest => simp only [PredicateBody.text, String.append_assoc]
  · rw [if_neg hlen, if_neg hlen, caseLabels_eq]
    simp only [PredicateBody.text, String.append_assoc, List.map_map, Function.comp_def]

theorem emitDefinition_eq_append (Map : StringMap) (OS Mnemonic : String) :
    emitDefinition Map OS Mnemonic = OS ++ definitionText Map Mnemonic := by
  rw [definitionText, emitDefinition_eq, emitDefinition_eq]
  simp only [String.append_assoc, String.empty_append]

theorem foldl_emitDeclaration (Keys : List String) (OS : String) :
    Keys.foldl emitDeclaration OS = OS ++ String.join (Keys.map declarationText) := by
  rw [← foldl_append_eq]
  congr 1
  funext OS M
  exact emitDeclaration_eq OS M

theorem foldl_emitDefinition (Map : StringMap) (Keys : List String) (OS : String) :
    Keys.foldl (emitDefinition Map) OS =
      OS ++ String.join (Keys.map (definitionText Map)) := by
  rw [← foldl_append_eq]
  congr 1
  funext OS M
  exact emitDefinition_eq_append Map OS M

/-- The whole output of a run whose loop completes. -/
theorem run_of_ok {ε : Type} (emitSourceFileHeader : String → String) (ord : IterationOrder)
    (getMnemonic : CodeGenInstruction → Nat → Except ε String) (Variant : Nat)
    (l : List CodeGenInstruction) (OS : String) (Map : StringMap)
    (hMap : MnemonicToCGInstrMap getMnemonic Variant l = .ok Map) :
    run emitSourceFileHeader ord getMnemonic Variant l OS =
      ⟨OS ++ emitSourceFileHeader "X86 Mnemonic tables" ++
        "namespace llvm \x7b\nnamespace X86 \x7b\n\n" ++
        "#ifdef GET_X86_MNEMONIC_TABLES_H\n" ++
        "#undef GET_X86_MNEMONIC_TABLES_H\n\n" ++
        String.join ((StringMap.keys ord Map).map declarationText) ++
        "#endif // GET_X86_MNEMONIC_TABLES_H\n\n" ++
        "#ifdef GET_X86_MNEMONIC_TABLES_CPP\n" ++
        "#undef GET_X86_MNEMONIC_TABLES_CPP\n\n" ++
        String.join ((StringMap.keys ord Map).map (definitionText Map)) ++
        "#endif // GET_X86_MNEMONIC_TABLES_CPP\n\n" ++
        "\x7d // end namespace X86\n\x7d // end namespace llvm", none⟩ := by
  unfold MnemonicToCGInstrMap at hMap
  unfold run
  simp only [hMap, foldl_emitDeclaration, foldl_emitDefinition]

/-- A completed loop is one on which derivation succeeded wherever it was
called. -/
theorem groupLoop_ok_inv {ε : Type} (getMnemonic : CodeGenInstruction → Nat → Except ε String)
    (Variant : Nat) (l : List CodeGenInstruction) (Map0 Map : StringMap)
    (h : groupLoop getMnemonic Variant l Map0 = .ok Map) :
    ∀ I ∈ l, passesFilter I = true → ∃ M, getMnemonic I Variant = .ok M := by
  induction l generalizing Map0 with
  | nil => intro I hI; cases hI
  | cons J rest ih =>
    intro I hI hp
    rw [groupLoop] at h
    by_cases hpJ : passesFilter J = true
    · have hp' := (passesFilter_iff J).1 hpJ
      simp only [hp'.1, hp'.2.1, hp'.2.2] at h
      cases hJ : getMnemonic J Variant with
      | error e => simp [hJ] at h
      | ok M =>
        simp [hJ] at h
        rcases List.mem_cons.1 hI with rfl | hI
        · exact ⟨M, hJ⟩
        · exact ih _ h I hI hp
    · have hIrest : I ∈ rest := by
        rcases List.mem_cons.1 hI with rfl | hI
        · exact absurd hp hpJ
        · exact hI
      have hp' := hpJ
      rw [passesFilter_iff] at hp'
      by_cases hS : J.ShouldBeEmitted = true
      · have hor : J.AsmVariantName = "NonParsable" ∨ J.Form = X86Local.PrefixByte := by
          by_contra hcon
          push_neg at hcon
          exact hp' ⟨hS, hcon.1, hcon.2⟩
        simp [hS, hor] at h
        exact ih _ h I hIrest hp
      · simp [hS] at h
        exact ih _ h I hIrest hp

/-- The map of a completed loop, whatever the derivation function. -/
theorem buildMap_eq_of_ok {ε : Type} (getMnemonic : CodeGenInstruction → Nat → Except ε String)
    (Variant : Nat) (l : List CodeGenInstruction) (Map : StringMap)
    (hMap : MnemonicToCGInstrMap getMnemonic Variant l = .ok Map) :
    Map = insertAll (derivedKey getMnemonic Variant) (l.filter passesFilter) [] := by
  have h := buildMap_ok getMnemonic Variant l
    (groupLoop_ok_inv getMnemonic Variant l [] Map hMap)
  rw [hMap] at h
  exact Except.ok.inj h

theorem buildMap_keys_nodup {ε : Type} (getMnemonic : CodeGenInstruction → Nat → Except ε String)
    (Variant : Nat) (l : List CodeGenInstruction) (Map : StringMap)
    (hMap : MnemonicToCGInstrMap getMnemonic Variant l = .ok Map) :
    (StringMap.insertedKeys Map).Nodup := by
  rw [buildMap_eq_of_ok getMnemonic Variant l Map hMap]
  exact insertedKeys_insertAll_nodup _ _ [] (by simp [StringMap.insertedKeys])

theorem exampleMap_built :
    MnemonicToCGInstrMap exampleGetMnemonic 0 exampleInstructions = .ok exampleMap := by
  rfl

/-- The vector read under the key of an entry of a built map is the vector of
that entry. -/
theorem subscript_of_mem {ε : Type} (getMnemonic : CodeGenInstruction → Nat → Except ε String)
    (Variant : Nat) (l : List CodeGenInstruction) (Map : StringMap)
    (hMap : MnemonicToCGInstrMap getMnemonic Variant l = .ok Map)
    (G : String × List CodeGenInstruction) (hG : G ∈ Map) :
    StringMap.subscript Map G.1 = G.2 :=
  ((mem_iff_subscript Map (buildMap_keys_nodup getMnemonic Variant l Map hMap) G.1 G.2).1
    hG).2

/-- C4, single-instruction shape: for a group of a built map whose list is the
single descriptor `D`, the definition written for the group's key is the
signature line followed by `return Opcode == ` and the definition name of `D`;
the body is the equality test, true on an opcode exactly when the opcode is
the definition name of `D`. -/
theorem single_instruction_shape {ε : Type}
    (getMnemonic : CodeGenInstruction → Nat → Except ε String) (Variant : Nat)
    (l : List CodeGenInstruction) (Map : StringMap)
    (hMap : MnemonicToCGInstrMap getMnemonic Variant l = .ok Map)
    (G : String × List CodeGenInstruction) (hG : G ∈ Map)
    (D : CodeGenInstruction) (hone : G.2 = [D]) (OS : String) :
    emitDefinition Map OS G.1 =
        OS ++ "bool is" ++ G.1 ++ "(unsigned Opcode) \x7b\n" ++
          "\treturn Opcode == " ++ D.Name ++ ";\n\x7d\n\n" ∧
      predicateOf (StringMap.subscript Map G.1) = PredicateBody.returnEq D.Name ∧
      ∀ Opcode : String,
        (predicateOf (StringMap.subscript Map G.1)).eval Opcode = true ↔ Opcode = D.Name := by
  have hsub : StringMap.subscript Map G.1 = [D] :=
    (subscript_of_mem getMnemonic Variant l Map hMap G hG).trans hone
  have hpred : predicateOf (StringMap.subscript Map G.1) = PredicateBody.returnEq D.Name := by
    rw [hsub]; rfl
  refine ⟨?_, hpred, ?_⟩
  · rw [emitDefinition_eq, hpred]
    simp only [PredicateBody.text, String.append_assoc]
  · intro Opcode
    rw [hpred]
    simp [PredicateBody.eval]

/-- The single-instruction theorem on the `MOV` group of the example. -/
theorem single_instruction_shape_witness :
    MnemonicToCGInstrMap exampleGetMnemonic 0 exampleInstructions = .ok exampleMap ∧
    ("MOV", [exampleMOV32rr]) ∈ exampleMap ∧
    (("MOV", [exampleMOV32rr]) : String × List CodeGenInstruction).2 = [exampleMOV32rr] ∧
    (emitDefinition exampleMap "" "MOV" =
        "" ++ "bool is" ++ "MOV" ++ "(unsigned Opcode) \x7b\n" ++
          "\treturn Opcode == " ++ exampleMOV32rr.Name ++ ";\n\x7d\n\n" ∧
      predicateOf (StringMap.subscript exampleMap "MOV") =
        PredicateBody.returnEq exampleMOV32rr.Name ∧
      ∀ Opcode : String,
        (predicateOf (StringMap.subscript exampleMap "MOV")).eval Opcode = true ↔
          Opcode = exampleMOV32rr.Name) :=
  ⟨exampleMap_built, by simp [exampleMap], rfl,
    single_instruction_shape exampleGetMnemonic 0 exampleInstructions exampleMap
      exampleMap_built ("MOV", [exampleMOV32rr]) (by simp [exampleMap]) exampleMOV32rr rfl ""⟩

/-- C5, multi-instruction shape: for a group of a built map whose list has
more than one member, the definition written for the group's key is the
signature line, the switch header, one case label for each member of the list,
in list order and bearing the member's definition name, then the single
`return true`, the end of the switch and `return false`; the body is true on
an opcode exactly when the opcode is the definition name of a member. -/
theorem multi_instruction_shape {ε : Type}
    (getMnemonic : CodeGenInstruction → Nat → Except ε String) (Variant : Nat)
    (l : List CodeGenInstruction) (Map : StringMap)
    (hMap : MnemonicToCGInstrMap getMnemonic Variant l = .ok Map)
    (G : String × List CodeGenInstruction) (hG : G ∈ Map)
    (hmany : 1 < G.2.length) (OS : String) :
    emitDefinition Map OS G.1 =
        OS ++ "bool is" ++ G.1 ++ "(unsigned Opcode) \x7b\n" ++
          "\tswitch (Opcode) \x7b\n" ++
          String.join (G.2.map (fun D => "\tcase " ++ D.Name ++ ":\n")) ++
          "\t\treturn true;\n\t\x7d\n\treturn false;\n\x7d\n\n" ∧
      (G.2.map (fun D => "\tcase " ++ D.Name ++ ":\n")).length = G.2.length ∧
      predicateOf (StringMap.subscript Map G.1) =
        PredicateBody.switchCases (G.2.map (fun D => D.Name)) ∧
      ∀ Opcode : String,
        (predicateOf (StringMap.subscript Map G.1)).eval Opcode = true ↔
          ∃ D ∈ G.2, Opcode = D.Name := by
  have hsub : StringMap.subscript Map G.1 = G.2 :=
    subscript_of_mem getMnemonic Variant l Map hMap G hG
  have hlen : ¬ G.2.length = 1 := by omega
  have hpred : predicateOf (StringMap.subscript Map G.1) =
      PredicateBody.switchCases (G.2.map (fun D => D.Name)) := by
    rw [hsub]; unfold predicateOf; rw [if_neg hlen]
  refine ⟨?_, List.length_map _ _, hpred, ?_⟩
  · rw [emitDefinition_eq, hpred]
    simp only [PredicateBody.text, String.append_assoc, List.map_map, Function.comp_def]
  · intro Opcode
    rw [hpred]
    simp only [PredicateBody.eval, List.any_eq_true, List.mem_map, decide_eq_true_eq]
    constructor
    · rintro ⟨Label, ⟨D, hD, rfl⟩, hO⟩
      exact ⟨D, hD, hO⟩
    · rintro ⟨D, hD, hO⟩
      exact ⟨D.Name, ⟨D, hD, rfl⟩, hO⟩

/-- The multi-instruction theorem on the `ADD` group of the example. -/
theorem multi_instruction_shape_witness :
    MnemonicToCGInstrMap exampleGetMnemonic 0 exampleInstructions = .ok exampleMap ∧
    ("ADD", [exampleADD32rr, exampleADD32mr]) ∈ exampleMap ∧
    1 < (("ADD", [exampleADD32rr, exampleADD32mr]) :
      String × List CodeGenInstruction).2.length ∧
    (emitDefinition exampleMap "" "ADD" =
        "" ++ "bool is" ++ "ADD" ++ "(unsigned Opcode) \x7b\n" ++
          "\tswitch (Opcode) \x7b\n" ++
          String.join ([exampleADD32rr, exampleADD32mr].map
            (fun D => "\tcase " ++ D.Name ++ ":\n")) ++
          "\t\treturn true;\n\t\x7d\n\treturn false;\n\x7d\n\n" ∧
      ([exampleADD32rr, exampleADD32mr].map
        (fun D => "\tcase " ++ D.Name ++ ":\n")).length = 2 ∧
      predicateOf (StringMap.subscript exampleMap "ADD") =
        PredicateBody.switchCases
          ([exampleADD32rr, exampleADD32mr].map (fun D => D.Name)) ∧
      ∀ Opcode : String,
        (predicateOf (StringMap.subscript exampleMap "ADD")).eval Opcode = true ↔
          ∃ D ∈ [exampleADD32rr, exampleADD32mr], Opcode = D.Name) :=
  ⟨exampleMap_built, by simp [exampleMap], by decide,
    multi_instruction_shape exampleGetMnemonic 0 exampleInstructions exampleMap
      exampleMap_built ("ADD", [exampleADD32rr, exampleADD32mr]) (by simp [exampleMap])
      (by decide) ""⟩

/-! ## The two sections of the output -/

theorem declarationText_eq (Mnemonic : String) :
    declarationText Mnemonic = "bool is" ++ Mnemonic ++ "(unsigned Opcode);\n" := by
  simp only [declarationText, emitDeclaration, String.empty_append]

theorem definitionText_eq (Map : StringMap) (Mnemonic : String) :
    definitionText Map Mnemonic =
      "bool is" ++ Mnemonic ++ "(unsigned Opcode) \x7b\n" ++
        (predicateOf (StringMap.subscript Map Mnemonic)).text := by
  rw [definitionText, emitDefinition_eq]
  simp only [String.empty_append]

/-- The keys of a built map are the mnemonics derived from the instructions
that pass the filter. -/
theorem mem_insertedKeys_iff {ε : Type}
    (getMnemonic : CodeGenInstruction → Nat → Except ε String) (Variant : Nat)
    (l : List CodeGenInstruction) (Map : StringMap)
    (hMap : MnemonicToCGInstrMap getMnemonic Variant l = .ok Map) (M : String) :
    M ∈ StringMap.insertedKeys Map ↔
      ∃ D ∈ l, passesFilter D = true ∧ getMnemonic D Variant = .ok M := by
  have hderive := groupLoop_ok_inv getMnemonic Variant l [] Map hMap
  rw [buildMap_eq_of_ok getMnemonic Variant l Map hMap, mem_insertedKeys_insertAll]
  constructor
  · rintro (h | ⟨I, hI, hk⟩)
    · simp [StringMap.insertedKeys] at h
    · obtain ⟨hIl, hp⟩ := List.mem_filter.1 hI
      obtain ⟨K, hK⟩ := hderive I hIl hp
      rw [derivedKey_eq hK] at hk
      exact ⟨I, hIl, hp, hk ▸ hK⟩
  · rintro ⟨D, hD, hp, hM⟩
    exact Or.inr ⟨D, List.mem_filter.2 ⟨hD, hp⟩, derivedKey_eq hM⟩

theorem keys_nodup {ε : Type}
    (getMnemonic : CodeGenInstruction → Nat → Except ε String) (Variant : Nat)
    (l : List CodeGenInstruction) (Map : StringMap)
    (hMap : MnemonicToCGInstrMap getMnemonic Variant l = .ok Map) (ord : IterationOrder) :
    (StringMap.keys ord Map).Nodup :=
  (ord.perm _).nodup_iff.2 (buildMap_keys_nodup getMnemonic Variant l Map hMap)

theorem mem_keys_iff (ord : IterationOrder) (Map : StringMap) (M : String) :
    M ∈ StringMap.keys ord Map ↔ M ∈ StringMap.insertedKeys Map :=
  (ord.perm _).mem_iff

/-- The number of keys of a built map is the number of distinct mnemonics
derived from the instructions that pass the filter. -/
theorem keys_length {ε : Type}
    (getMnemonic : CodeGenInstruction → Nat → Except ε String) (Variant : Nat)
    (l : List CodeGenInstruction) (Map : StringMap)
    (hMap : MnemonicToCGInstrMap getMnemonic Variant l = .ok Map) (ord : IterationOrder) :
    (StringMap.keys ord Map).length =
      ((l.filter passesFilter).map (derivedKey getMnemonic Variant)).toFinset.card := by
  rw [List.card_toFinset]
  unfold StringMap.keys
  rw [(ord.perm _).length_eq]
  apply List.Perm.length_eq
  rw [List.perm_ext_iff_of_nodup (buildMap_keys_nodup getMnemonic Variant l Map hMap)
    (List.nodup_dedup _)]
  intro M
  rw [List.mem_dedup, buildMap_eq_of_ok getMnemonic Variant l Map hMap,
    mem_insertedKeys_insertAll]
  simp [StringMap.insertedKeys]

/-- C6, declaration section: when derivation succeeds on the descriptors that
pass the filter, the text between the first guard and its `#endif` is one
line `bool is<M>(unsigned Opcode);` for each key in iteration order; the keys
are without repetition, they are exactly the mnemonics derived from the
descriptors that pass the filter, and their number is the number of distinct
such mnemonics. -/
theorem declaration_section {ε : Type} (emitSourceFileHeader : String → String)
    (ord : IterationOrder) (getMnemonic : CodeGenInstruction → Nat → Except ε String)
    (Variant : Nat) (l : List CodeGenInstruction) (OS : String)
    (hderive : ∀ I ∈ l, passesFilter I = true → ∃ M, getMnemonic I Variant = .ok M) :
    ∃ Map, MnemonicToCGInstrMap getMnemonic Variant l = .ok Map ∧
      (run emitSourceFileHeader ord getMnemonic Variant l OS).OS =
        OS ++ emitSourceFileHeader "X86 Mnemonic tables" ++
          "namespace llvm \x7b\nnamespace X86 \x7b\n\n" ++
          "#ifdef GET_X86_MNEMONIC_TABLES_H\n" ++
          "#undef GET_X86_MNEMONIC_TABLES_H\n\n" ++
          String.join ((StringMap.keys ord Map).map
            (fun M => "bool is" ++ M ++ "(unsigned Opcode);\n")) ++
          "#endif // GET_X86_MNEMONIC_TABLES_H\n\n" ++
          "#ifdef GET_X86_MNEMONIC_TABLES_CPP\n" ++
          "#undef GET_X86_MNEMONIC_TABLES_CPP\n\n" ++
          String.join ((StringMap.keys ord Map).map (definitionText Map)) ++
          "#endif // GET_X86_MNEMONIC_TABLES_CPP\n\n" ++
          "\x7d // end namespace X86\n\x7d // end namespace llvm" ∧
      (StringMap.keys ord Map).Nodup ∧
      (∀ M : String, M ∈ StringMap.keys ord Map ↔
        ∃ D ∈ l, passesFilter D = true ∧ getMnemonic D Variant = .ok M) ∧
      (StringMap.keys ord Map).length =
        ((l.filter passesFilter).map (derivedKey getMnemonic Variant)).toFinset.card := by
  have hMap := buildMap_ok getMnemonic Variant l hderive
  refine ⟨_, hMap, ?_, keys_nodup getMnemonic Variant l _ hMap ord, ?_,
    keys_length getMnemonic Variant l _ hMap ord⟩
  · rw [run_of_ok emitSourceFileHeader ord getMnemonic Variant l OS _ hMap]
    have hdecl : declarationText = fun M => "bool is" ++ M ++ "(unsigned Opcode);\n" :=
      funext declarationText_eq
    rw [hdecl]
  · intro M
    rw [mem_keys_iff, mem_insertedKeys_iff getMnemonic Variant l _ hMap]

/-- The declaration-section theorem on the example input, iterated in reverse
order of insertion. -/
theorem declaration_section_witness :
    (∀ I ∈ exampleInstructions, passesFilter I = true →
      ∃ M, exampleGetMnemonic I 0 = .ok M) ∧
    ∃ Map, MnemonicToCGInstrMap exampleGetMnemonic 0 exampleInstructions = .ok Map ∧
      (run (fun _ => "") reverseOrder exampleGetMnemonic 0 exampleInstructions "").OS =
        "" ++ (fun _ => "") "X86 Mnemonic tables" ++
          "namespace llvm \x7b\nnamespace X86 \x7b\n\n" ++
          "#ifdef GET_X86_MNEMONIC_TABLES_H\n" ++
          "#undef GET_X86_MNEMONIC_TABLES_H\n\n" ++
          String.join ((StringMap.keys reverseOrder Map).map
            (fun M => "bool is" ++ M ++ "(unsigned Opcode);\n")) ++
          "#endif // GET_X86_MNEMONIC_TABLES_H\n\n" ++
          "#ifdef GET_X86_MNEMONIC_TABLES_CPP\n" ++
          "#undef GET_X86_MNEMONIC_TABLES_CPP\n\n" ++
          String.join ((StringMap.keys reverseOrder Map).map (definitionText Map)) ++
          "#endif // GET_X86_MNEMONIC_TABLES_CPP\n\n" ++
          "\x7d // end namespace X86\n\x7d // end namespace llvm" ∧
      (StringMap.keys reverseOrder Map).Nodup ∧
      (∀ M : String, M ∈ StringMap.keys reverseOrder Map ↔
        ∃ D ∈ exampleInstructions, passesFilter D = true ∧
          exampleGetMnemonic D 0 = .ok M) ∧
      (StringMap.keys reverseOrder Map).length =
        ((exampleInstructions.filter passesFilter).map
          (derivedKey exampleGetMnemonic 0)).toFinset.card :=
  ⟨exampleGetMnemonic_ok,
    declaration_section (fun _ => "") reverseOrder exampleGetMnemonic 0 exampleInstructions ""
      exampleGetMnemonic_ok⟩

/-- C7, declaration and definition parity: when derivation succeeds on the
descriptors that pass the filter, the run completes and there is one sequence
of keys, without repetition, such that the declaration section is the
declarations of these keys in this order and the definition section is the
definitions of these keys in this order. -/
theorem declaration_definition_parity {ε : Type} (emitSourceFileHeader : String → String)
    (ord : IterationOrder) (getMnemonic : CodeGenInstruction → Nat → Except ε String)
    (Variant : Nat) (l : List CodeGenInstruction) (OS : String)
    (hderive : ∀ I ∈ l, passesFilter I = true → ∃ M, getMnemonic I Variant = .ok M) :
    ∃ (Map : StringMap) (Keys : List String),
      MnemonicToCGInstrMap getMnemonic Variant l = .ok Map ∧
      Keys.Nodup ∧
      (run emitSourceFileHeader ord getMnemonic Variant l OS).error = none ∧
      (run emitSourceFileHeader ord getMnemonic Variant l OS).OS =
        OS ++ emitSourceFileHeader "X86 Mnemonic tables" ++
          "namespace llvm \x7b\nnamespace X86 \x7b\n\n" ++
          "#ifdef GET_X86_MNEMONIC_TABLES_H\n" ++
          "#undef GET_X86_MNEMONIC_TABLES_H\n\n" ++
          String.join (Keys.map (fun M => "bool is" ++ M ++ "(unsigned Opcode);\n")) ++
          "#endif // GET_X86_MNEMONIC_TABLES_H\n\n" ++
          "#ifdef GET_X86_MNEMONIC_TABLES_CPP\n" ++
          "#undef GET_X86_MNEMONIC_TABLES_CPP\n\n" ++
          String.join (Keys.map (fun M =>
            "bool is" ++ M ++ "(unsigned Opcode) \x7b\n" ++
              (predicateOf (StringMap.subscript Map M)).text)) ++
          "#endif // GET_X86_MNEMONIC_TABLES_CPP\n\n" ++
          "\x7d // end namespace X86\n\x7d // end namespace llvm" := by
  have hMap := buildMap_ok getMnemonic Variant l hderive
  refine ⟨_, StringMap.keys ord _, hMap, keys_nodup getMnemonic Variant l _ hMap ord, ?_, ?_⟩
  · rw [run_of_ok emitSourceFileHeader ord getMnemonic Variant l OS _ hMap]
  · rw [run_of_ok emitSourceFileHeader ord getMnemonic Variant l OS _ hMap]
    have hdecl : declarationText = fun M => "bool is" ++ M ++ "(unsigned Opcode);\n" :=
      funext declarationText_eq
    have hdef : ∀ Map : StringMap, definitionText Map = fun M =>
        "bool is" ++ M ++ "(unsigned Opcode) \x7b\n" ++
          (predicateOf (StringMap.subscript Map M)).text :=
      fun Map => funext (definitionText_eq Map)
    rw [hdecl, hdef]

/-- The parity theorem on the example input, iterated in order of insertion. -/
theorem declaration_definition_parity_witness :
    (∀ I ∈ exampleInstructions, passesFilter I = true →
      ∃ M, exampleGetMnemonic I 0 = .ok M) ∧
    ∃ (Map : StringMap) (Keys : List String),
      MnemonicToCGInstrMap exampleGetMnemonic 0 exampleInstructions = .ok Map ∧
      Keys.Nodup ∧
      (run (fun _ => "") insertionOrder exampleGetMnemonic 0 exampleInstructions "").error
        = none ∧
      (run (fun _ => "") insertionOrder exampleGetMnemonic 0 exampleInstructions "").OS =
        "" ++ (fun _ => "") "X86 Mnemonic tables" ++
          "namespace llvm \x7b\nnamespace X86 \x7b\n\n" ++
          "#ifdef GET_X86_MNEMONIC_TABLES_H\n" ++
          "#undef GET_X86_MNEMONIC_TABLES_H\n\n" ++
          String.join (Keys.map (fun M => "bool is" ++ M ++ "(unsigned Opcode);\n")) ++
          "#endif // GET_X86_MNEMONIC_TABLES_H\n\n" ++
          "#ifdef GET_X86_MNEMONIC_TABLES_CPP\n" ++
          "#undef GET_X86_MNEMONIC_TABLES_CPP\n\n" ++
          String.join (Keys.map (fun M =>
            "bool is" ++ M ++ "(unsigned Opcode) \x7b\n" ++
              (predicateOf (StringMap.subscript Map M)).text)) ++
          "#endif // GET_X86_MNEMONIC_TABLES_CPP\n\n" ++
          "\x7d // end namespace X86\n\x7d // end namespace llvm" :=
  ⟨exampleGetMnemonic_ok,
    declaration_definition_parity (fun _ => "") insertionOrder exampleGetMnemonic 0
      exampleInstructions "" exampleGetMnemonic_ok⟩

/-! ## The end-to-end example -/

/-- A list with the same members as a pair is the pair in one of its two
orders. -/
theorem perm_pair {α : Type} {a b : α} {l : List α} (h : l.Perm [a, b]) :
    l = [a, b] ∨ l = [b, a] := by
  match l, h with
  | [], h => exact absurd h.length_eq (by simp)
  | [_], h => exact absurd h.length_eq (by simp)
  | _ :: _ :: _ :: _, h => exact absurd h.length_eq (by simp)
  | [x, y], h =>
    have hx : x ∈ [a, b] := h.mem_iff.1 (List.mem_cons_self _ _)
    simp only [List.mem_cons, List.mem_singleton, List.not_mem_nil, or_false] at hx
    rcases hx with rfl | rfl
    · have := (List.perm_cons x).1 h
      have := List.perm_singleton.1 this
      simp only [List.cons.injEq, and_true] at this
      exact Or.inl (by rw [this])
    · have h2 : [x, y].Perm [x, a] := h.trans (List.Perm.swap x a [])
      have := (List.perm_cons x).1 h2
      have := List.perm_singleton.1 this
      simp only [List.cons.injEq, and_true] at this
      exact Or.inr (by rw [this])

theorem exampleMap_built_any (Variant : Nat) :
    MnemonicToCGInstrMap exampleGetMnemonic Variant exampleInstructions = .ok exampleMap := by
  rfl

/-- A text that occurs in two texts written one after the other occurs in the
first, or in the second, or starts in the first and ends in the second, a
proper end of it opening the second. -/
theorem infix_append_cases {α : Type} (p a b : List α) (h : p <:+: a ++ b) :
    p <:+: a ∨ p <:+: b ∨ ∃ k, k < p.length ∧ p.drop k <+: b := by
  obtain ⟨s, t, hst⟩ := h
  rw [List.append_assoc, List.append_eq_append_iff] at hst
  rcases hst with ⟨a', ha, hpt⟩ | ⟨c', hs, hb⟩
  · rw [List.append_eq_append_iff] at hpt
    rcases hpt with ⟨c, ha', ht⟩ | ⟨c, hp, hb⟩
    · left
      exact ⟨s, c, by rw [ha, ha', List.append_assoc]⟩
    · by_cases hc : c = []
      · subst hc
        left
        exact ⟨s, [], by simp [ha, hp]⟩
      · right; right
        refine ⟨a'.length, ?_, ?_⟩
        · rw [hp, List.length_append]
          have : 0 < c.length := List.length_pos.2 hc
          omega
        · rw [hp, List.drop_left]
          exact ⟨t, hb.symm⟩
  · right; left
    exact ⟨c', t, by rw [hb, List.append_assoc]⟩

set_option maxRecDepth 100000 in
/-- The name of the prefix byte does not come into being where one of the two
example texts is written after a text that does not hold it. -/
theorem example_texts_free (P : String) (hP : ¬ ("REX_PREFIX".data <:+: P.data)) :
    ¬ ("REX_PREFIX".data <:+: (P ++ exampleTextAddFirst).data) ∧
      ¬ ("REX_PREFIX".data <:+: (P ++ exampleTextMovFirst).data) := by
  have hadd : ¬ ("REX_PREFIX".data <:+: exampleTextAddFirst.data) := by decide
  have hmov : ¬ ("REX_PREFIX".data <:+: exampleTextMovFirst.data) := by decide
  have hsadd : ∀ k, k < "REX_PREFIX".data.length →
      ¬ ("REX_PREFIX".data.drop k <+: exampleTextAddFirst.data) := by decide
  have hsmov : ∀ k, k < "REX_PREFIX".data.length →
      ¬ ("REX_PREFIX".data.drop k <+: exampleTextMovFirst.data) := by decide
  constructor
  · intro h
    rw [String.data_append] at h
    rcases infix_append_cases _ _ _ h with h | h | ⟨k, hk, h⟩
    · exact hP h
    · exact hadd h
    · exact hsadd k hk h
  · intro h
    rw [String.data_append] at h
    rcases infix_append_cases _ _ _ h with h | h | ⟨k, hk, h⟩
    · exact hP h
    · exact hmov h
    · exact hsmov k hk h

set_option maxRecDepth 100000 in
/-- C8, end-to-end example: on `ADD32rr`, `ADD32mr`, `MOV32rr` and the prefix
byte `REX_PREFIX` the run completes and writes, after the file header, one of
two texts according to the iteration order of the two keys: the declarations
of `isADD` and `isMOV`, `isADD` defined as the switch over `ADD32rr` and
`ADD32mr` in this order, and `isMOV` defined as `return Opcode == MOV32rr;`.
The name `REX_PREFIX` occurs in neither text, and nowhere on the stream after
the run unless the stream or the file header held it before. -/
theorem end_to_end_example (emitSourceFileHeader : String → String) (ord : IterationOrder)
    (Variant : Nat) (OS : String) :
    (run emitSourceFileHeader ord exampleGetMnemonic Variant exampleInstructions OS =
        ⟨OS ++ emitSourceFileHeader "X86 Mnemonic tables" ++ exampleTextAddFirst, none⟩ ∨
      run emitSourceFileHeader ord exampleGetMnemonic Variant exampleInstructions OS =
        ⟨OS ++ emitSourceFileHeader "X86 Mnemonic tables" ++ exampleTextMovFirst, none⟩) ∧
    ¬ ("REX_PREFIX".data <:+: exampleTextAddFirst.data) ∧
    ¬ ("REX_PREFIX".data <:+: exampleTextMovFirst.data) ∧
    (¬ ("REX_PREFIX".data <:+: (OS ++ emitSourceFileHeader "X86 Mnemonic tables").data) →
      ¬ ("REX_PREFIX".data <:+:
        (run emitSourceFileHeader ord exampleGetMnemonic Variant exampleInstructions OS).OS.data))
    := by
  have hrun : run emitSourceFileHeader ord exampleGetMnemonic Variant exampleInstructions OS =
        ⟨OS ++ emitSourceFileHeader "X86 Mnemonic tables" ++ exampleTextAddFirst, none⟩ ∨
      run emitSourceFileHeader ord exampleGetMnemonic Variant exampleInstructions OS =
        ⟨OS ++ emitSourceFileHeader "X86 Mnemonic tables" ++ exampleTextMovFirst, none⟩ := by
    rw [run_of_ok emitSourceFileHeader ord exampleGetMnemonic Variant exampleInstructions OS
      exampleMap (exampleMap_built_any Variant)]
    have hkeys : StringMap.keys ord exampleMap = ["ADD", "MOV"] ∨
        StringMap.keys ord exampleMap = ["MOV", "ADD"] := perm_pair (ord.perm _)
    rcases hkeys with hk | hk
    · left
      rw [hk]
      simp only [String.append_assoc]
      rfl
    · right
      rw [hk]
      simp only [String.append_assoc]
      rfl
  refine ⟨hrun, by decide, by decide, ?_⟩
  intro hP
  rcases hrun with h | h
  · rw [h]
    exact (example_texts_free _ hP).1
  · rw [h]
    exact (example_texts_free _ hP).2

/-! ## A failing derivation -/

/-- A loop that meets a failing derivation on an instruction that passes the
filter ends with the error of the first such instruction. -/
theorem groupLoop_error {ε : Type} (getMnemonic : CodeGenInstruction → Nat → Except ε String)
    (Variant : Nat) (l : List CodeGenInstruction) (Map0 : StringMap)
    (hfail : ∃ D ∈ l, passesFilter D = true ∧ ∃ e, getMnemonic D Variant = .error e) :
    ∃ (pre : List CodeGenInstruction) (D : CodeGenInstruction)
      (post : List CodeGenInstruction) (e : ε),
      l = pre ++ D :: post ∧
      (∀ I ∈ pre, passesFilter I = true → ∃ M, getMnemonic I Variant = .ok M) ∧
      passesFilter D = true ∧ getMnemonic D Variant = .error e ∧
      groupLoop getMnemonic Variant l Map0 = .error e := by
  induction l generalizing Map0 with
  | nil =>
    obtain ⟨D, hD, _⟩ := hfail
    cases hD
  | cons J rest ih =>
    -- the remainder of the input still holds a failing instruction when `J` is not one
    have hrest : (passesFilter J = true → ∃ M, getMnemonic J Variant = .ok M) →
        ∃ D ∈ rest, passesFilter D = true ∧ ∃ e, getMnemonic D Variant = .error e := by
      intro hJ
      obtain ⟨D, hD, hp, e, he⟩ := hfail
      rcases List.mem_cons.1 hD with rfl | hD
      · obtain ⟨M, hM⟩ := hJ hp
        rw [hM] at he
        cases he
      · exact ⟨D, hD, hp, e, he⟩
    by_cases hpJ : passesFilter J = true
    · have hp' := (passesFilter_iff J).1 hpJ
      cases hJ : getMnemonic J Variant with
      | error e =>
        refine ⟨[], J, rest, e, rfl, ?_, hpJ, hJ, ?_⟩
        · intro I hI; cases hI
        · rw [groupLoop]
          simp [hp'.1, hp'.2.1, hp'.2.2, hJ]
      | ok M =>
        obtain ⟨pre, D, post, e, hl, hpre, hD, he, hloop⟩ :=
          ih (StringMap.pushBack Map0 M J) (hrest (fun _ => ⟨M, hJ⟩))
        refine ⟨J :: pre, D, post, e, by rw [hl]; rfl, ?_, hD, he, ?_⟩
        · intro I hI hp
          rcases List.mem_cons.1 hI with rfl | hI
          · exact ⟨M, hJ⟩
          · exact hpre I hI hp
        · rw [groupLoop]
          simp [hp'.1, hp'.2.1, hp'.2.2, hJ, hloop]
    · obtain ⟨pre, D, post, e, hl, hpre, hD, he, hloop⟩ :=
        ih Map0 (hrest (fun h => absurd h hpJ))
      refine ⟨J :: pre, D, post, e, by rw [hl]; rfl, ?_, hD, he, ?_⟩
      · intro I hI hp
        rcases List.mem_cons.1 hI with rfl | hI
        · exact absurd hp hpJ
        · exact hpre I hI hp
      · have hp' := hpJ
        rw [passesFilter_iff] at hp'
        rw [groupLoop]
        by_cases hS : J.ShouldBeEmitted = true
        · have hor : J.AsmVariantName = "NonParsable" ∨ J.Form = X86Local.PrefixByte := by
            by_contra hcon
            push_neg at hcon
            exact hp' ⟨hS, hcon.1, hcon.2⟩
          simp [hS, hor, hloop]
        · simp [hS, hloop]

/-- C9 as the claim states it fails: on a single instruction that passes the
filter and whose derivation fails, the run ends with that error and the
stream, empty before the run, holds the banner and the namespace opener. -/
theorem no_partial_output_counterexample :
    passesFilter exampleUnknown = true ∧
    exampleGetMnemonic exampleUnknown 0 = .error "no mnemonic for FOO32rr" ∧
    (run exampleHeader insertionOrder exampleGetMnemonic 0 [exampleUnknown] "").error =
      some "no mnemonic for FOO32rr" ∧
    (run exampleHeader insertionOrder exampleGetMnemonic 0 [exampleUnknown] "").OS =
      "/* X86 Mnemonic tables */\nnamespace llvm \x7b\nnamespace X86 \x7b\n\n" ∧
    (run exampleHeader insertionOrder exampleGetMnemonic 0 [exampleUnknown] "").OS ≠ "" := by
  refine ⟨by decide, rfl, rfl, rfl, by decide⟩

/-- C9 amended: on an input in which derivation fails for some descriptor that
passes the filter, the run ends with the error of the first such descriptor,
and the stream holds what it held before the run followed by the file header
and the namespace opener, and nothing else: no guard, no declaration and no
definition. -/
theorem abort_after_header {ε : Type} (emitSourceFileHeader : String → String)
    (ord : IterationOrder) (getMnemonic : CodeGenInstruction → Nat → Except ε String)
    (Variant : Nat) (l : List CodeGenInstruction) (OS : String)
    (hfail : ∃ D ∈ l, passesFilter D = true ∧ ∃ e, getMnemonic D Variant = .error e) :
    ∃ (pre : List CodeGenInstruction) (D : CodeGenInstruction)
      (post : List CodeGenInstruction) (e : ε),
      l = pre ++ D :: post ∧
      (∀ I ∈ pre, passesFilter I = true → ∃ M, getMnemonic I Variant = .ok M) ∧
      passesFilter D = true ∧ getMnemonic D Variant = .error e ∧
      (run emitSourceFileHeader ord getMnemonic Variant l OS).error = some e ∧
      (run emitSourceFileHeader ord getMnemonic Variant l OS).OS =
        OS ++ emitSourceFileHeader "X86 Mnemonic tables" ++
          "namespace llvm \x7b\nnamespace X86 \x7b\n\n" := by
  obtain ⟨pre, D, post, e, hl, hpre, hD, he, hloop⟩ :=
    groupLoop_error getMnemonic Variant l [] hfail
  refine ⟨pre, D, post, e, hl, hpre, hD, he, ?_, ?_⟩ <;>
    simp only [run, hloop]

/-- The amended theorem on an input whose second instruction fails. -/
theorem abort_after_header_witness :
    (∃ D ∈ [exampleADD32rr, exampleUnknown, exampleMOV32rr],
      passesFilter D = true ∧ ∃ e, exampleGetMnemonic D 0 = .error e) ∧
    ∃ (pre : List CodeGenInstruction) (D : CodeGenInstruction)
      (post : List CodeGenInstruction) (e : String),
      [exampleADD32rr, exampleUnknown, exampleMOV32rr] = pre ++ D :: post ∧
      (∀ I ∈ pre, passesFilter I = true → ∃ M, exampleGetMnemonic I 0 = .ok M) ∧
      passesFilter D = true ∧ exampleGetMnemonic D 0 = .error e ∧
      (run exampleHeader reverseOrder exampleGetMnemonic 0
        [exampleADD32rr, exampleUnknown, exampleMOV32rr] "").error = some e ∧
      (run exampleHeader reverseOrder exampleGetMnemonic 0
        [exampleADD32rr, exampleUnknown, exampleMOV32rr] "").OS =
        "" ++ exampleHeader "X86 Mnemonic tables" ++
          "namespace llvm \x7b\nnamespace X86 \x7b\n\n" :=
  ⟨⟨exampleUnknown, by simp, by decide, _, rfl⟩,
    abort_after_header exampleHeader reverseOrder exampleGetMnemonic 0
      [exampleADD32rr, exampleUnknown, exampleMOV32rr] ""
      ⟨exampleUnknown, by simp, by decide, _, rfl⟩⟩

/-! ## Lines of the output -/

theorem splitLines_no_newline (a : List Char) (h : '\n' ∉ a) : splitLines a = [a] := by
  induction a with
  | nil => rfl
  | cons c cs ih =>
    have hc : ¬ c = '\n' := fun e => h (e ▸ List.mem_cons_self _ _)
    have hcs : '\n' ∉ cs := fun e => h (List.mem_cons_of_mem _ e)
    simp [splitLines, hc, ih hcs]

theorem splitLines_append_newline (a b : List Char) (h : '\n' ∉ a) :
    splitLines (a ++ '\n' :: b) = a :: splitLines b := by
  induction a with
  | nil => simp [splitLines]
  | cons c cs ih =>
    have hc : ¬ c = '\n' := fun e => h (e ▸ List.mem_cons_self _ _)
    have hcs : '\n' ∉ cs := fun e => h (List.mem_cons_of_mem _ e)
    simp [splitLines, hc, ih hcs]

/-- Lines written one after the other, each but the last ended by a newline,
are the lines of the text. -/
theorem splitLines_flatten (Ls : List (List Char)) (last : List Char)
    (hLs : ∀ L ∈ Ls, '\n' ∉ L) (hlast : '\n' ∉ last) :
    splitLines ((Ls.map (fun L => L ++ ['\n'])).flatten ++ last) = Ls ++ [last] := by
  induction Ls with
  | nil => simpa using splitLines_no_newline last hlast
  | cons L rest ih =>
    have hL : '\n' ∉ L := hLs L (List.mem_cons_self _ _)
    have hrest : ∀ K ∈ rest, '\n' ∉ K := fun K hK => hLs K (List.mem_cons_of_mem _ hK)
    simp only [List.map_cons, List.flatten_cons, List.append_assoc, List.singleton_append,
      List.cons_append]
    rw [splitLines_append_newline _ _ hL, List.nil_append, ih hrest]

theorem linesOf_join (Ls : List String) (last : String)
    (hLs : ∀ L ∈ Ls, '\n' ∉ L.data) (hlast : '\n' ∉ last.data) :
    linesOf (String.join (Ls.map (fun L => L ++ "\n")) ++ last) = Ls ++ [last] := by
  unfold linesOf
  have hdata : (String.join (Ls.map (fun L => L ++ "\n")) ++ last).data =
      ((Ls.map String.data).map (fun L => L ++ ['\n'])).flatten ++ last.data := by
    simp only [String.data_append, String.data_join, List.map_map]
    rfl
  rw [hdata, splitLines_flatten _ _ (by simpa using hLs) hlast]
  simp [List.map_map, Function.comp_def]

theorem declarationText_eq_line (Mnemonic : String) :
    declarationText Mnemonic = declarationLine Mnemonic ++ "\n" := by
  rw [declarationText_eq, declarationLine]
  simp only [String.append_assoc]
  rfl

theorem text_eq_lines (p : PredicateBody) :
    p.text = String.join (p.lines.map (fun L => L ++ "\n")) := by
  cases p with
  | returnEq Name =>
    simp only [PredicateBody.text, PredicateBody.lines, List.map_cons, List.map_nil, join_cons,
      String.append_assoc]
    rfl
  | switchCases Labels =>
    simp only [PredicateBody.text, PredicateBody.lines, List.map_append, List.map_cons,
      List.map_nil, List.map_map, join_append, join_cons, String.append_assoc,
      Function.comp_def]
    rfl

theorem definitionText_eq_lines (Map : StringMap) (Mnemonic : String) :
    definitionText Map Mnemonic =
      String.join ((definitionLines Map Mnemonic).map (fun L => L ++ "\n")) := by
  rw [definitionText_eq, definitionLines, List.map_cons, join_cons, text_eq_lines]
  simp only [String.append_assoc]
  rfl

theorem join_map_join {α : Type} (f : α → List String) (l : List α) :
    String.join (l.map (fun a => String.join ((f a).map (fun L => L ++ "\n")))) =
      String.join ((l.flatMap f).map (fun L => L ++ "\n")) := by
  induction l with
  | nil => rfl
  | cons a rest ih =>
    rw [List.map_cons, join_cons, ih, List.flatMap_cons, List.map_append, join_append]

theorem no_newline_of_identifier (s : String) (h : isIdentifierFragment s = true) :
    '\n' ∉ s.data := by
  intro hmem
  have := List.all_eq_true.1 h _ hmem
  revert this
  decide

theorem declarationLine_no_newline (M : String) (hM : '\n' ∉ M.data) :
    '\n' ∉ (declarationLine M).data := by
  intro h
  rw [declarationLine, String.data_append, String.data_append, List.mem_append,
    List.mem_append] at h
  rcases h with (h | h) | h
  · exact absurd h (by decide)
  · exact hM h
  · exact absurd h (by decide)

theorem declarationLine_isLoopLine (M : String) : isLoopLine (declarationLine M) = true := by
  have : (declarationLine M).data.head? = some 'b' := by
    rw [declarationLine, String.append_assoc, String.data_append]
    rfl
  simp [isLoopLine, this]

theorem lines_no_newline (p : PredicateBody) (hp : ∀ N ∈ p.names, '\n' ∉ N.data) :
    ∀ L ∈ p.lines, '\n' ∉ L.data := by
  cases p with
  | returnEq Name =>
    have hN : '\n' ∉ Name.data := hp Name (by simp [PredicateBody.names])
    intro L hL
    simp only [PredicateBody.lines, List.mem_cons, List.mem_singleton, List.not_mem_nil,
      or_false] at hL
    rcases hL with rfl | rfl | rfl
    · intro h
      rw [String.data_append, String.data_append, List.mem_append, List.mem_append] at h
      rcases h with (h | h) | h
      · exact absurd h (by decide)
      · exact hN h
      · exact absurd h (by decide)
    · decide
    · decide
  | switchCases Labels =>
    intro L hL
    simp only [PredicateBody.lines, List.mem_append, List.mem_cons, List.mem_singleton,
      List.not_mem_nil, or_false, List.mem_map] at hL
    rcases hL with (rfl | ⟨Label, hLabel, rfl⟩) | rfl | rfl | rfl | rfl | rfl
    · decide
    · have hN : '\n' ∉ Label.data := hp Label (by simpa [PredicateBody.names] using hLabel)
      intro h
      rw [String.data_append, String.data_append, List.mem_append, List.mem_append] at h
      rcases h with (h | h) | h
      · exact absurd h (by decide)
      · exact hN h
      · exact absurd h (by decide)
    all_goals decide

theorem lines_isLoopLine (p : PredicateBody) : ∀ L ∈ p.lines, isLoopLine L = true := by
  cases p with
  | returnEq Name =>
    intro L hL
    simp only [PredicateBody.lines, List.mem_cons, List.mem_singleton, List.not_mem_nil,
      or_false] at hL
    rcases hL with rfl | rfl | rfl
    · have : ("\treturn Opcode == " ++ Name ++ ";").data.head? = some '\t' := by
        rw [String.append_assoc, String.data_append]
        rfl
      simp [isLoopLine, this]
    · decide
    · decide
  | switchCases Labels =>
    intro L hL
    simp only [PredicateBody.lines, List.mem_append, List.mem_cons, List.mem_singleton,
      List.not_mem_nil, or_false, List.mem_map] at hL
    rcases hL with (rfl | ⟨Label, _, rfl⟩) | rfl | rfl | rfl | rfl | rfl
    · decide
    · have : ("\tcase " ++ Label ++ ":").data.head? = some '\t' := by
        rw [String.append_assoc, String.data_append]
        rfl
      simp [isLoopLine, this]
    all_goals decide

theorem predicateOf_names (V : List CodeGenInstruction) :
    ∀ N ∈ (predicateOf V).names, ∃ D ∈ V, N = D.Name := by
  intro N hN
  unfold predicateOf at hN
  by_cases hlen : V.length = 1
  · rw [if_pos hlen] at hN
    match V, hlen with
    | [D], _ =>
      simp only [PredicateBody.names, List.mem_singleton] at hN
      exact ⟨D, List.mem_singleton.2 rfl, hN⟩
  · rw [if_neg hlen] at hN
    simp only [PredicateBody.names, List.mem_map] at hN
    obtain ⟨D, hD, rfl⟩ := hN
    exact ⟨D, hD, rfl⟩

/-- The instructions read under a key of a built map are instructions of the
input that pass the filter. -/
theorem mem_subscript {ε : Type}
    (getMnemonic : CodeGenInstruction → Nat → Except ε String) (Variant : Nat)
    (l : List CodeGenInstruction) (Map : StringMap)
    (hMap : MnemonicToCGInstrMap getMnemonic Variant l = .ok Map) (M : String)
    (D : CodeGenInstruction) (hD : D ∈ StringMap.subscript Map M) :
    D ∈ l ∧ passesFilter D = true := by
  rw [buildMap_eq_of_ok getMnemonic Variant l Map hMap, subscript_insertAll] at hD
  simp only [StringMap.subscript, List.nil_append] at hD
  exact List.mem_filter.1 (List.mem_filter.1 hD).1

theorem definitionLines_isLoopLine (Map : StringMap) (M : String) :
    ∀ L ∈ definitionLines Map M, isLoopLine L = true := by
  intro L hL
  rw [definitionLines, List.mem_cons] at hL
  rcases hL with rfl | hL
  · have : ("bool is" ++ M ++ "(unsigned Opcode) \x7b").data.head? = some 'b' := by
      rw [String.append_assoc, String.data_append]
      rfl
    simp [isLoopLine, this]
  · exact lines_isLoopLine _ L hL

theorem definitionLines_no_newline (Map : StringMap) (M : String) (hM : '\n' ∉ M.data)
    (hnames : ∀ D ∈ StringMap.subscript Map M, '\n' ∉ D.Name.data) :
    ∀ L ∈ definitionLines Map M, '\n' ∉ L.data := by
  intro L hL
  rw [definitionLines, List.mem_cons] at hL
  rcases hL with rfl | hL
  · intro h
    rw [String.data_append, String.data_append, List.mem_append, List.mem_append] at h
    rcases h with (h | h) | h
    · exact absurd h (by decide)
    · exact hM h
    · exact absurd h (by decide)
  · refine lines_no_newline _ ?_ L hL
    intro N hN
    obtain ⟨D, hD, rfl⟩ := predicateOf_names _ N hN
    exact hnames D hD

theorem isLoopLine_not_directive (L : String) (h : isLoopLine L = true) :
    isDirective L = false := by
  simp only [isLoopLine, Bool.or_eq_true, decide_eq_true_eq] at h
  rcases h with ((h | h) | h) | h
  · subst h; decide
  · subst h; decide
  · simp [isDirective, h]
  · simp [isDirective, h]

/-- No line of the two loops is one of the four lines of the namespace
wrapper. -/
theorem isLoopLine_ne_wrapper (L : String) (h : isLoopLine L = true) :
    L ≠ "namespace llvm \x7b" ∧ L ≠ "namespace X86 \x7b" ∧
      L ≠ "\x7d // end namespace X86" ∧ L ≠ "\x7d // end namespace llvm" := by
  refine ⟨?_, ?_, ?_, ?_⟩ <;>
  · intro hL
    subst hL
    revert h
    decide

set_option maxRecDepth 100000 in
/-- The lines of a text written as the wrapper and the two guards around two
blocks of lines, when the lines of the blocks have the shape of loop lines and
hold no newline. -/
theorem linesOf_packaged (A B : List String)
    (hA : ∀ L ∈ A, '\n' ∉ L.data ∧ isLoopLine L = true)
    (hB : ∀ L ∈ B, '\n' ∉ L.data ∧ isLoopLine L = true) (Text : String)
    (hText : Text = String.join
        ((["namespace llvm \x7b", "namespace X86 \x7b", "",
            "#ifdef GET_X86_MNEMONIC_TABLES_H", "#undef GET_X86_MNEMONIC_TABLES_H", ""] ++
          A ++
          ["#endif // GET_X86_MNEMONIC_TABLES_H", "",
            "#ifdef GET_X86_MNEMONIC_TABLES_CPP", "#undef GET_X86_MNEMONIC_TABLES_CPP", ""] ++
          B ++
          ["#endif // GET_X86_MNEMONIC_TABLES_CPP", "", "\x7d // end namespace X86"]).map
          (fun L => L ++ "\n")) ++ "\x7d // end namespace llvm") :
    linesOf Text =
        ["namespace llvm \x7b", "namespace X86 \x7b", "",
          "#ifdef GET_X86_MNEMONIC_TABLES_H", "#undef GET_X86_MNEMONIC_TABLES_H", ""] ++
        A ++
        ["#endif // GET_X86_MNEMONIC_TABLES_H", "",
          "#ifdef GET_X86_MNEMONIC_TABLES_CPP", "#undef GET_X86_MNEMONIC_TABLES_CPP", ""] ++
        B ++
        ["#endif // GET_X86_MNEMONIC_TABLES_CPP", "",
          "\x7d // end namespace X86", "\x7d // end namespace llvm"] ∧
      (linesOf Text).filter isDirective =
        ["#ifdef GET_X86_MNEMONIC_TABLES_H", "#undef GET_X86_MNEMONIC_TABLES_H",
          "#endif // GET_X86_MNEMONIC_TABLES_H",
          "#ifdef GET_X86_MNEMONIC_TABLES_CPP", "#undef GET_X86_MNEMONIC_TABLES_CPP",
          "#endif // GET_X86_MNEMONIC_TABLES_CPP"] ∧
      (linesOf Text).count "namespace llvm \x7b" = 1 ∧
      (linesOf Text).count "namespace X86 \x7b" = 1 ∧
      (linesOf Text).count "\x7d // end namespace X86" = 1 ∧
      (linesOf Text).count "\x7d // end namespace llvm" = 1 := by
  have hlines : linesOf Text =
        ["namespace llvm \x7b", "namespace X86 \x7b", "",
          "#ifdef GET_X86_MNEMONIC_TABLES_H", "#undef GET_X86_MNEMONIC_TABLES_H", ""] ++
        A ++
        ["#endif // GET_X86_MNEMONIC_TABLES_H", "",
          "#ifdef GET_X86_MNEMONIC_TABLES_CPP", "#undef GET_X86_MNEMONIC_TABLES_CPP", ""] ++
        B ++
        ["#endif // GET_X86_MNEMONIC_TABLES_CPP", "",
          "\x7d // end namespace X86", "\x7d // end namespace llvm"] := by
    rw [hText, linesOf_join]
    · simp only [List.append_assoc, List.cons_append, List.nil_append]
    · intro L hL
      simp only [List.mem_append] at hL
      rcases hL with (((hL | hL) | hL) | hL) | hL
      · revert L; decide
      · exact (hA L hL).1
      · revert L; decide
      · exact (hB L hL).1
      · revert L; decide
    · decide
  have hfA : A.filter isDirective = [] :=
    List.filter_eq_nil_iff.2 fun L hL => by
      rw [isLoopLine_not_directive L (hA L hL).2]; simp
  have hfB : B.filter isDirective = [] :=
    List.filter_eq_nil_iff.2 fun L hL => by
      rw [isLoopLine_not_directive L (hB L hL).2]; simp
  have hcA : ∀ W : String, (W = "namespace llvm \x7b" ∨ W = "namespace X86 \x7b" ∨
      W = "\x7d // end namespace X86" ∨ W = "\x7d // end namespace llvm") →
      A.count W = 0 ∧ B.count W = 0 := by
    intro W hW
    constructor
    · rw [List.count_eq_zero]
      intro hmem
      have := isLoopLine_ne_wrapper W (hA W hmem).2
      rcases hW with h | h | h | h
      · exact this.1 h
      · exact this.2.1 h
      · exact this.2.2.1 h
      · exact this.2.2.2 h
    · rw [List.count_eq_zero]
      intro hmem
      have := isLoopLine_ne_wrapper W (hB W hmem).2
      rcases hW with h | h | h | h
      · exact this.1 h
      · exact this.2.1 h
      · exact this.2.2.1 h
      · exact this.2.2.2 h
  refine ⟨hlines, ?_, ?_, ?_, ?_, ?_⟩
  · rw [hlines]
    simp only [List.filter_append, hfA, hfB, List.append_nil]
    rfl
  · rw [hlines]
    simp only [List.count_append, (hcA _ (Or.inl rfl)).1, (hcA _ (Or.inl rfl)).2]
    rfl
  · rw [hlines]
    simp only [List.count_append, (hcA _ (Or.inr (Or.inl rfl))).1,
      (hcA _ (Or.inr (Or.inl rfl))).2]
    rfl
  · rw [hlines]
    simp only [List.count_append, (hcA _ (Or.inr (Or.inr (Or.inl rfl)))).1,
      (hcA _ (Or.inr (Or.inr (Or.inl rfl)))).2]
    rfl
  · rw [hlines]
    simp only [List.count_append, (hcA _ (Or.inr (Or.inr (Or.inr rfl)))).1,
      (hcA _ (Or.inr (Or.inr (Or.inr rfl)))).2]
    rfl

set_option maxRecDepth 100000 in
/-- C10, section packaging: when the definition names and the derived
mnemonics of the descriptors that pass the filter are identifier fragments,
the run completes and the lines it writes after the file header are: the two
lines of the namespace opener; the first guard, `#ifdef` directly followed by
`#undef`; the declarations; the first `#endif`; the second guard, likewise;
the definitions; the second `#endif`; the two lines of the namespace closer.
The directives among all lines are these six, each line of the namespace
wrapper occurs once, and the two sentinels differ. -/
theorem section_packaging {ε : Type} (emitSourceFileHeader : String → String)
    (ord : IterationOrder) (getMnemonic : CodeGenInstruction → Nat → Except ε String)
    (Variant : Nat) (l : List CodeGenInstruction) (OS : String)
    (hident : ∀ I ∈ l, passesFilter I = true →
      isIdentifierFragment I.Name = true ∧
        ∃ M, getMnemonic I Variant = .ok M ∧ isIdentifierFragment M = true) :
    ∃ (Map : StringMap) (Text : String),
      MnemonicToCGInstrMap getMnemonic Variant l = .ok Map ∧
      (run emitSourceFileHeader ord getMnemonic Variant l OS).OS =
        OS ++ emitSourceFileHeader "X86 Mnemonic tables" ++ Text ∧
      linesOf Text =
        ["namespace llvm \x7b", "namespace X86 \x7b", "",
          "#ifdef GET_X86_MNEMONIC_TABLES_H", "#undef GET_X86_MNEMONIC_TABLES_H", ""] ++
        (StringMap.keys ord Map).map declarationLine ++
        ["#endif // GET_X86_MNEMONIC_TABLES_H", "",
          "#ifdef GET_X86_MNEMONIC_TABLES_CPP", "#undef GET_X86_MNEMONIC_TABLES_CPP", ""] ++
        (StringMap.keys ord Map).flatMap (definitionLines Map) ++
        ["#endif // GET_X86_MNEMONIC_TABLES_CPP", "",
          "\x7d // end namespace X86", "\x7d // end namespace llvm"] ∧
      (linesOf Text).filter isDirective =
        ["#ifdef GET_X86_MNEMONIC_TABLES_H", "#undef GET_X86_MNEMONIC_TABLES_H",
          "#endif // GET_X86_MNEMONIC_TABLES_H",
          "#ifdef GET_X86_MNEMONIC_TABLES_CPP", "#undef GET_X86_MNEMONIC_TABLES_CPP",
          "#endif // GET_X86_MNEMONIC_TABLES_CPP"] ∧
      (linesOf Text).count "namespace llvm \x7b" = 1 ∧
      (linesOf Text).count "namespace X86 \x7b" = 1 ∧
      (linesOf Text).count "\x7d // end namespace X86" = 1 ∧
      (linesOf Text).count "\x7d // end namespace llvm" = 1 ∧
      "GET_X86_MNEMONIC_TABLES_H" ≠ "GET_X86_MNEMONIC_TABLES_CPP" := by
  have hderive : ∀ I ∈ l, passesFilter I = true → ∃ M, getMnemonic I Variant = .ok M :=
    fun I hI hp => (hident I hI hp).2.imp fun _ h => h.1
  have hMap := buildMap_ok getMnemonic Variant l hderive
  generalize hMapdef :
    insertAll (derivedKey getMnemonic Variant) (l.filter passesFilter) [] = Map at hMap
  -- the keys and the names that reach the output are free of newlines
  have hkey : ∀ M ∈ StringMap.keys ord Map, '\n' ∉ M.data := by
    intro M hM
    rw [mem_keys_iff, mem_insertedKeys_iff getMnemonic Variant l Map hMap] at hM
    obtain ⟨D, hD, hp, hDM⟩ := hM
    obtain ⟨_, K, hK, hKid⟩ := hident D hD hp
    rw [hDM] at hK
    cases hK
    exact no_newline_of_identifier _ hKid
  have hname : ∀ M, ∀ D ∈ StringMap.subscript Map M, '\n' ∉ D.Name.data := by
    intro M D hD
    obtain ⟨hDl, hp⟩ := mem_subscript getMnemonic Variant l Map hMap M D hD
    exact no_newline_of_identifier _ (hident D hDl hp).1
  -- the lines of the two loops
  have hA : ∀ L ∈ (StringMap.keys ord Map).map declarationLine,
      '\n' ∉ L.data ∧ isLoopLine L = true := by
    intro L hL
    obtain ⟨M, hM, rfl⟩ := List.mem_map.1 hL
    exact ⟨declarationLine_no_newline M (hkey M hM), declarationLine_isLoopLine M⟩
  have hB : ∀ L ∈ (StringMap.keys ord Map).flatMap (definitionLines Map),
      '\n' ∉ L.data ∧ isLoopLine L = true := by
    intro L hL
    obtain ⟨M, hM, hLM⟩ := List.mem_flatMap.1 hL
    exact ⟨definitionLines_no_newline Map M (hkey M hM) (hname M) L hLM,
      definitionLines_isLoopLine Map M L hLM⟩
  generalize hAdef : (StringMap.keys ord Map).map declarationLine = A at hA
  generalize hBdef : (StringMap.keys ord Map).flatMap (definitionLines Map) = B at hB
  -- the text after the header, line by line
  have htext : String.join
        ((["namespace llvm \x7b", "namespace X86 \x7b", "",
            "#ifdef GET_X86_MNEMONIC_TABLES_H", "#undef GET_X86_MNEMONIC_TABLES_H", ""] ++
          A ++
          ["#endif // GET_X86_MNEMONIC_TABLES_H", "",
            "#ifdef GET_X86_MNEMONIC_TABLES_CPP", "#undef GET_X86_MNEMONIC_TABLES_CPP", ""] ++
          B ++
          ["#endif // GET_X86_MNEMONIC_TABLES_CPP", "", "\x7d // end namespace X86"]).map
          (fun L => L ++ "\n")) ++ "\x7d // end namespace llvm" =
      "namespace llvm \x7b\nnamespace X86 \x7b\n\n" ++
        "#ifdef GET_X86_MNEMONIC_TABLES_H\n" ++
        "#undef GET_X86_MNEMONIC_TABLES_H\n\n" ++
        String.join ((StringMap.keys ord Map).map declarationText) ++
        "#endif // GET_X86_MNEMONIC_TABLES_H\n\n" ++
        "#ifdef GET_X86_MNEMONIC_TABLES_CPP\n" ++
        "#undef GET_X86_MNEMONIC_TABLES_CPP\n\n" ++
        String.join ((StringMap.keys ord Map).map (definitionText Map)) ++
        "#endif // GET_X86_MNEMONIC_TABLES_CPP\n\n" ++
        "\x7d // end namespace X86\n\x7d // end namespace llvm" := by
    have hdecl : declarationText = fun M => declarationLine M ++ "\n" :=
      funext declarationText_eq_line
    have hdef : definitionText Map = fun M =>
        String.join ((definitionLines Map M).map (fun L => L ++ "\n")) :=
      funext (definitionText_eq_lines Map)
    rw [hdecl, hdef, join_map_join, hBdef, ← hAdef]
    simp only [List.map_append, join_append, List.map_map, Function.comp_def,
      String.append_assoc]
    rfl
  obtain ⟨h1, h2, h3, h4, h5, h6⟩ := linesOf_packaged A B hA hB _ htext.symm
  subst hAdef hBdef
  refine ⟨Map, _, hMap, ?_, h1, h2, h3, h4, h5, h6, by decide⟩
  rw [run_of_ok emitSourceFileHeader ord getMnemonic Variant l OS Map hMap]
  simp only [String.append_assoc]

theorem exampleGetMnemonic_identifiers :
    ∀ I ∈ exampleInstructions, passesFilter I = true →
      isIdentifierFragment I.Name = true ∧
        ∃ M, exampleGetMnemonic I 0 = .ok M ∧ isIdentifierFragment M = true := by
  intro I hI hp
  simp only [exampleInstructions, List.mem_cons, List.mem_singleton, List.not_mem_nil,
    or_false] at hI
  rcases hI with rfl | rfl | rfl | rfl
  · exact ⟨by decide, "ADD", rfl, by decide⟩
  · exact ⟨by decide, "ADD", rfl, by decide⟩
  · exact ⟨by decide, "MOV", rfl, by decide⟩
  · exact absurd hp (by decide)

/-- The packaging theorem on the example input. -/
theorem section_packaging_witness :
    (∀ I ∈ exampleInstructions, passesFilter I = true →
      isIdentifierFragment I.Name = true ∧
        ∃ M, exampleGetMnemonic I 0 = .ok M ∧ isIdentifierFragment M = true) ∧
    ∃ (Map : StringMap) (Text : String),
      MnemonicToCGInstrMap exampleGetMnemonic 0 exampleInstructions = .ok Map ∧
      (run exampleHeader insertionOrder exampleGetMnemonic 0 exampleInstructions "").OS =
        "" ++ exampleHeader "X86 Mnemonic tables" ++ Text ∧
      linesOf Text =
        ["namespace llvm \x7b", "namespace X86 \x7b", "",
          "#ifdef GET_X86_MNEMONIC_TABLES_H", "#undef GET_X86_MNEMONIC_TABLES_H", ""] ++
        (StringMap.keys insertionOrder Map).map declarationLine ++
        ["#endif // GET_X86_MNEMONIC_TABLES_H", "",
          "#ifdef GET_X86_MNEMONIC_TABLES_CPP", "#undef GET_X86_MNEMONIC_TABLES_CPP", ""] ++
        (StringMap.keys insertionOrder Map).flatMap (definitionLines Map) ++
        ["#endif // GET_X86_MNEMONIC_TABLES_CPP", "",
          "\x7d // end namespace X86", "\x7d // end namespace llvm"] ∧
      (linesOf Text).filter isDirective =
        ["#ifdef GET_X86_MNEMONIC_TABLES_H", "#undef GET_X86_MNEMONIC_TABLES_H",
          "#endif // GET_X86_MNEMONIC_TABLES_H",
          "#ifdef GET_X86_MNEMONIC_TABLES_CPP", "#undef GET_X86_MNEMONIC_TABLES_CPP",
          "#endif // GET_X86_MNEMONIC_TABLES_CPP"] ∧
      (linesOf Text).count "namespace llvm \x7b" = 1 ∧
      (linesOf Text).count "namespace X86 \x7b" = 1 ∧
      (linesOf Text).count "\x7d // end namespace X86" = 1 ∧
      (linesOf Text).count "\x7d // end namespace llvm" = 1 ∧
      "GET_X86_MNEMONIC_TABLES_H" ≠ "GET_X86_MNEMONIC_TABLES_CPP" :=
  ⟨exampleGetMnemonic_identifiers,
    section_packaging exampleHeader insertionOrder exampleGetMnemonic 0 exampleInstructions ""
      exampleGetMnemonic_identifiers⟩

/-! ## Filter before derive -/

theorem groupLoop_cons_skip {ε : Type} (getMnemonic : CodeGenInstruction → Nat → Except ε String)
    (Variant : Nat) (I : CodeGenInstruction) (rest : List CodeGenInstruction)
    (Map : StringMap) (hp : ¬ passesFilter I = true) :
    groupLoop getMnemonic Variant (I :: rest) Map = groupLoop getMnemonic Variant rest Map := by
  have hp' := hp
  rw [passesFilter_iff] at hp'
  rw [groupLoop]
  by_cases hS : I.ShouldBeEmitted = true
  · have hor : I.AsmVariantName = "NonParsable" ∨ I.Form = X86Local.PrefixByte := by
      by_contra hcon
      push_neg at hcon
      exact hp' ⟨hS, hcon.1, hcon.2⟩
    simp [hS, hor]
  · simp [hS]

theorem groupLoop_cons_pass {ε : Type} (getMnemonic : CodeGenInstruction → Nat → Except ε String)
    (Variant : Nat) (I : CodeGenInstruction) (rest : List CodeGenInstruction)
    (Map : StringMap) (hp : passesFilter I = true) :
    groupLoop getMnemonic Variant (I :: rest) Map =
      match getMnemonic I Variant with
      | .error e => .error e
      | .ok Mnemonic =>
          groupLoop getMnemonic Variant rest (StringMap.pushBack Map Mnemonic I) := by
  have hp' := (passesFilter_iff I).1 hp
  rw [groupLoop]
  simp [hp'.1, hp'.2.1, hp'.2.2]

theorem derivationCalls_cons_skip {ε : Type}
    (getMnemonic : CodeGenInstruction → Nat → Except ε String)
    (Variant : Nat) (I : CodeGenInstruction) (rest : List CodeGenInstruction)
    (hp : ¬ passesFilter I = true) :
    derivationCalls getMnemonic Variant (I :: rest) =
      derivationCalls getMnemonic Variant rest := by
  have hp' := hp
  rw [passesFilter_iff] at hp'
  rw [derivationCalls]
  by_cases hS : I.ShouldBeEmitted = true
  · have hor : I.AsmVariantName = "NonParsable" ∨ I.Form = X86Local.PrefixByte := by
      by_contra hcon
      push_neg at hcon
      exact hp' ⟨hS, hcon.1, hcon.2⟩
    simp [hS, hor]
  · simp [hS]

theorem derivationCalls_cons_pass {ε : Type}
    (getMnemonic : CodeGenInstruction → Nat → Except ε String)
    (Variant : Nat) (I : CodeGenInstruction) (rest : List CodeGenInstruction)
    (hp : passesFilter I = true) :
    derivationCalls getMnemonic Variant (I :: rest) =
      match getMnemonic I Variant with
      | .error _ => [I]
      | .ok _ => I :: derivationCalls getMnemonic Variant rest := by
  have hp' := (passesFilter_iff I).1 hp
  rw [derivationCalls]
  simp [hp'.1, hp'.2.1, hp'.2.2]

/-- Every call of the derivation function is on an instruction of the input
that passes the filter. -/
theorem derivationCalls_subset {ε : Type}
    (getMnemonic : CodeGenInstruction → Nat → Except ε String)
    (Variant : Nat) (l : List CodeGenInstruction) :
    ∀ D ∈ derivationCalls getMnemonic Variant l, D ∈ l ∧ passesFilter D = true := by
  induction l with
  | nil => intro D hD; simp [derivationCalls] at hD
  | cons I rest ih =>
    intro D hD
    by_cases hp : passesFilter I = true
    · rw [derivationCalls_cons_pass getMnemonic Variant I rest hp] at hD
      cases hI : getMnemonic I Variant with
      | error e =>
        rw [hI] at hD
        simp only [List.mem_singleton] at hD
        subst hD
        exact ⟨List.mem_cons_self _ _, hp⟩
      | ok M =>
        rw [hI] at hD
        simp only [List.mem_cons] at hD
        rcases hD with rfl | hD
        · exact ⟨List.mem_cons_self _ _, hp⟩
        · exact ⟨List.mem_cons_of_mem _ (ih D hD).1, (ih D hD).2⟩
    · rw [derivationCalls_cons_skip getMnemonic Variant I rest hp] at hD
      exact ⟨List.mem_cons_of_mem _ (ih D hD).1, (ih D hD).2⟩

/-- The calls are made in input order on the instructions that pass the
filter, from the first one on and without a gap. -/
theorem derivationCalls_prefix {ε : Type}
    (getMnemonic : CodeGenInstruction → Nat → Except ε String)
    (Variant : Nat) (l : List CodeGenInstruction) :
    derivationCalls getMnemonic Variant l <+: l.filter passesFilter := by
  induction l with
  | nil => simp [derivationCalls]
  | cons I rest ih =>
    by_cases hp : passesFilter I = true
    · rw [derivationCalls_cons_pass getMnemonic Variant I rest hp, List.filter_cons_of_pos hp]
      cases getMnemonic I Variant with
      | error e => exact ⟨List.filter passesFilter rest, rfl⟩
      | ok M => exact (List.prefix_cons_inj I).2 ih
    · rw [derivationCalls_cons_skip getMnemonic Variant I rest hp, List.filter_cons_of_neg hp]
      exact ih

/-- When derivation succeeds wherever it is called, it is called on every
instruction that passes the filter. -/
theorem derivationCalls_ok {ε : Type}
    (getMnemonic : CodeGenInstruction → Nat → Except ε String)
    (Variant : Nat) (l : List CodeGenInstruction)
    (hderive : ∀ I ∈ l, passesFilter I = true → ∃ M, getMnemonic I Variant = .ok M) :
    derivationCalls getMnemonic Variant l = l.filter passesFilter := by
  induction l with
  | nil => simp [derivationCalls]
  | cons I rest ih =>
    have hrest : ∀ J ∈ rest, passesFilter J = true → ∃ M, getMnemonic J Variant = .ok M :=
      fun J hJ => hderive J (List.mem_cons_of_mem _ hJ)
    by_cases hp : passesFilter I = true
    · obtain ⟨M, hM⟩ := hderive I (List.mem_cons_self _ _) hp
      rw [derivationCalls_cons_pass getMnemonic Variant I rest hp, List.filter_cons_of_pos hp,
        hM, ih hrest]
    · rw [derivationCalls_cons_skip getMnemonic Variant I rest hp, List.filter_cons_of_neg hp]
      exact ih hrest

/-- The loop on an input whose first failing instruction is `D`. -/
theorem groupLoop_error_at {ε : Type} (getMnemonic : CodeGenInstruction → Nat → Except ε String)
    (Variant : Nat) (pre : List CodeGenInstruction) (D : CodeGenInstruction)
    (post : List CodeGenInstruction) (e : ε) (Map0 : StringMap)
    (hpre : ∀ I ∈ pre, passesFilter I = true → ∃ M, getMnemonic I Variant = .ok M)
    (hD : passesFilter D = true) (he : getMnemonic D Variant = .error e) :
    groupLoop getMnemonic Variant (pre ++ D :: post) Map0 = .error e := by
  induction pre generalizing Map0 with
  | nil =>
    rw [List.nil_append, groupLoop_cons_pass getMnemonic Variant D post Map0 hD, he]
  | cons I rest ih =>
    have hrest : ∀ J ∈ rest, passesFilter J = true → ∃ M, getMnemonic J Variant = .ok M :=
      fun J hJ => hpre J (List.mem_cons_of_mem _ hJ)
    rw [List.cons_append]
    by_cases hp : passesFilter I = true
    · obtain ⟨M, hM⟩ := hpre I (List.mem_cons_self _ _) hp
      rw [groupLoop_cons_pass getMnemonic Variant I _ Map0 hp, hM]
      exact ih _ hrest
    · rw [groupLoop_cons_skip getMnemonic Variant I _ Map0 hp]
      exact ih _ hrest

/-- The loop sees the derivation function only on the instructions that pass
the filter. -/
theorem groupLoop_congr {ε : Type} (g g2 : CodeGenInstruction → Nat → Except ε String)
    (Variant : Nat) (l : List CodeGenInstruction) (Map0 : StringMap)
    (hagree : ∀ D ∈ l, passesFilter D = true → g2 D Variant = g D Variant) :
    groupLoop g2 Variant l Map0 = groupLoop g Variant l Map0 := by
  induction l generalizing Map0 with
  | nil => rfl
  | cons I rest ih =>
    have hrest : ∀ D ∈ rest, passesFilter D = true → g2 D Variant = g D Variant :=
      fun D hD => hagree D (List.mem_cons_of_mem _ hD)
    by_cases hp : passesFilter I = true
    · rw [groupLoop_cons_pass g2 Variant I rest Map0 hp,
        groupLoop_cons_pass g Variant I rest Map0 hp, hagree I (List.mem_cons_self _ _) hp]
      cases g I Variant with
      | error e => rfl
      | ok M => exact ih _ hrest
    · rw [groupLoop_cons_skip g2 Variant I rest Map0 hp,
        groupLoop_cons_skip g Variant I rest Map0 hp]
      exact ih _ hrest

/-- The error of a run is the error of its loop. -/
theorem run_error {ε : Type} (emitSourceFileHeader : String → String) (ord : IterationOrder)
    (getMnemonic : CodeGenInstruction → Nat → Except ε String) (Variant : Nat)
    (l : List CodeGenInstruction) (OS : String) :
    (run emitSourceFileHeader ord getMnemonic Variant l OS).error =
      match groupLoop getMnemonic Variant l [] with
      | .error e => some e
      | .ok _ => none := by
  unfold run
  cases groupLoop getMnemonic Variant l [] <;> rfl

/-- C12, filter before derive: the derivation function is called only on
descriptors of the input that pass the three exclusion tests, in input order
and on all of them when the run completes, and the run is the same for two
derivation functions that agree on these descriptors.  The
run completes exactly when derivation succeeds on every descriptor that passes
the filter, and it fails with the error `e` exactly when the first descriptor
that passes the filter and on which derivation fails, fails with `e`.  An
excluded descriptor therefore never makes the run fail. -/
theorem filter_before_derive {ε : Type} (emitSourceFileHeader : String → String)
    (ord : IterationOrder) (getMnemonic : CodeGenInstruction → Nat → Except ε String)
    (Variant : Nat) (l : List CodeGenInstruction) (OS : String) :
    (∀ D ∈ derivationCalls getMnemonic Variant l, D ∈ l ∧ passesFilter D = true) ∧
    derivationCalls getMnemonic Variant l <+: l.filter passesFilter ∧
    ((run emitSourceFileHeader ord getMnemonic Variant l OS).error = none →
      derivationCalls getMnemonic Variant l = l.filter passesFilter) ∧
    (∀ g2 : CodeGenInstruction → Nat → Except ε String,
      (∀ D ∈ l, passesFilter D = true → g2 D Variant = getMnemonic D Variant) →
        run emitSourceFileHeader ord g2 Variant l OS =
          run emitSourceFileHeader ord getMnemonic Variant l OS) ∧
    ((run emitSourceFileHeader ord getMnemonic Variant l OS).error = none ↔
      ∀ D ∈ l, passesFilter D = true → ∃ M, getMnemonic D Variant = .ok M) ∧
    (∀ e : ε, (run emitSourceFileHeader ord getMnemonic Variant l OS).error = some e ↔
      ∃ (pre : List CodeGenInstruction) (D : CodeGenInstruction)
        (post : List CodeGenInstruction),
        l = pre ++ D :: post ∧
        (∀ I ∈ pre, passesFilter I = true → ∃ M, getMnemonic I Variant = .ok M) ∧
        passesFilter D = true ∧ getMnemonic D Variant = .error e) := by
  refine ⟨derivationCalls_subset getMnemonic Variant l,
    derivationCalls_prefix getMnemonic Variant l, ?_, ?_, ?_, ?_⟩
  · rw [run_error]
    intro h
    cases hloop : groupLoop getMnemonic Variant l [] with
    | error e => rw [hloop] at h; cases h
    | ok Map =>
      exact derivationCalls_ok getMnemonic Variant l
        (groupLoop_ok_inv getMnemonic Variant l [] Map hloop)
  · intro g2 hagree
    unfold run
    rw [groupLoop_congr getMnemonic g2 Variant l [] hagree]
  · rw [run_error]
    constructor
    · intro h
      cases hloop : groupLoop getMnemonic Variant l [] with
      | error e => rw [hloop] at h; cases h
      | ok Map => exact groupLoop_ok_inv getMnemonic Variant l [] Map hloop
    · intro h
      rw [groupLoop_ok getMnemonic Variant l [] h]
  · intro e
    rw [run_error]
    constructor
    · intro h
      cases hloop : groupLoop getMnemonic Variant l [] with
      | ok Map => rw [hloop] at h; cases h
      | error e2 =>
        rw [hloop] at h
        have hee : e2 = e := Option.some.inj h
        subst hee
        have hfail : ∃ D ∈ l, passesFilter D = true ∧
            ∃ e, getMnemonic D Variant = .error e := by
          by_contra hcon
          push_neg at hcon
          have hall : ∀ I ∈ l, passesFilter I = true →
              ∃ M, getMnemonic I Variant = .ok M := by
            intro I hI hp
            cases hI2 : getMnemonic I Variant with
            | ok M => exact ⟨M, rfl⟩
            | error e3 => exact absurd hI2 (hcon I hI hp e3)
          rw [groupLoop_ok getMnemonic Variant l [] hall] at hloop
          cases hloop
        obtain ⟨pre, D, post, e3, hl, hpre, hD, he, hloop3⟩ :=
          groupLoop_error getMnemonic Variant l [] hfail
        rw [hloop] at hloop3
        have : e2 = e3 := Except.error.inj hloop3
        subst this
        exact ⟨pre, D, post, hl, hpre, hD, he⟩
    · rintro ⟨pre, D, post, hl, hpre, hD, he⟩
      rw [hl, groupLoop_error_at getMnemonic Variant pre D post e [] hpre hD he]

/-! ## The predicates taken together -/

/-- The vector read under a key of a built map has a member. -/
theorem subscript_ne_nil {ε : Type} (getMnemonic : CodeGenInstruction → Nat → Except ε String)
    (Variant : Nat) (l : List CodeGenInstruction) (Map : StringMap)
    (hMap : MnemonicToCGInstrMap getMnemonic Variant l = .ok Map) (M : String)
    (hM : M ∈ StringMap.insertedKeys Map) :
    StringMap.subscript Map M ≠ [] := by
  rw [mem_insertedKeys_iff getMnemonic Variant l Map hMap] at hM
  obtain ⟨D, hD, hp, hDM⟩ := hM
  have hmem : D ∈ StringMap.subscript Map M := by
    rw [buildMap_eq_of_ok getMnemonic Variant l Map hMap, subscript_insertAll]
    simp only [StringMap.subscript, List.nil_append, List.mem_filter, decide_eq_true_eq]
    exact ⟨⟨hD, hp⟩, derivedKey_eq hDM⟩
  exact List.ne_nil_of_mem hmem

/-- The text of a body is not the text of a switch without case labels, unless
the body is that switch. -/
theorem text_ne_empty_switch (p : PredicateBody) (hp : p ≠ PredicateBody.switchCases []) :
    p.text ≠ (PredicateBody.switchCases []).text := by
  intro h
  cases p with
  | returnEq Name =>
    have h1 := congrArg (fun s : String => s.data.get? 1) h
    simp [PredicateBody.text, String.append_assoc, String.data_append] at h1
  | switchCases Labels =>
    cases Labels with
    | nil => exact hp rfl
    | cons Label rest =>
      have h1 := congrArg (fun s : String => s.data.length) h
      simp [PredicateBody.text, join_cons, String.data_append, String.data_join] at h1
      omega

/-- C14, no empty group: in a built map every entry holds a non-empty list,
and so does every key that the emission loops visit; a list of a size other
than one therefore has at least two members, the switch chosen for it has at
least two case labels, and the definition written for the key is not the
switch without case labels. -/
theorem no_empty_group {ε : Type} (ord : IterationOrder)
    (getMnemonic : CodeGenInstruction → Nat → Except ε String) (Variant : Nat)
    (l : List CodeGenInstruction) (Map : StringMap)
    (hMap : MnemonicToCGInstrMap getMnemonic Variant l = .ok Map) :
    (∀ G ∈ Map, G.2 ≠ []) ∧
    ∀ M ∈ StringMap.keys ord Map,
      StringMap.subscript Map M ≠ [] ∧
      ((StringMap.subscript Map M).length ≠ 1 → 2 ≤ (StringMap.subscript Map M).length) ∧
      (∀ Labels : List String,
        predicateOf (StringMap.subscript Map M) = PredicateBody.switchCases Labels →
          2 ≤ Labels.length) ∧
      ∀ OS : String, emitDefinition Map OS M ≠
        OS ++ "bool is" ++ M ++ "(unsigned Opcode) \x7b\n" ++
          "\tswitch (Opcode) \x7b\n" ++
          "\t\treturn true;\n\t\x7d\n\treturn false;\n\x7d\n\n" := by
  have hnodup := buildMap_keys_nodup getMnemonic Variant l Map hMap
  have hkey : ∀ M ∈ StringMap.insertedKeys Map,
      StringMap.subscript Map M ≠ [] ∧
      ((StringMap.subscript Map M).length ≠ 1 → 2 ≤ (StringMap.subscript Map M).length) ∧
      (∀ Labels : List String,
        predicateOf (StringMap.subscript Map M) = PredicateBody.switchCases Labels →
          2 ≤ Labels.length) := by
    intro M hM
    have hne := subscript_ne_nil getMnemonic Variant l Map hMap M hM
    have hpos : 0 < (StringMap.subscript Map M).length := List.length_pos.2 hne
    refine ⟨hne, fun h => by omega, ?_⟩
    intro Labels hLabels
    unfold predicateOf at hLabels
    by_cases hlen : (StringMap.subscript Map M).length = 1
    · rw [if_pos hlen] at hLabels
      cases hsub : StringMap.subscript Map M with
      | nil => exact absurd hsub hne
      | cons CGI rest =>
        rw [hsub] at hLabels
        cases hLabels
    · rw [if_neg hlen] at hLabels
      have := PredicateBody.switchCases.inj hLabels
      rw [← this, List.length_map]
      omega
  constructor
  · intro G hG
    have hGkey : G.1 ∈ StringMap.insertedKeys Map := List.mem_map.2 ⟨G, hG, rfl⟩
    rw [← subscript_of_mem getMnemonic Variant l Map hMap G hG]
    exact (hkey G.1 hGkey).1
  · intro M hM
    rw [mem_keys_iff] at hM
    obtain ⟨h1, h2, h3⟩ := hkey M hM
    refine ⟨h1, h2, h3, ?_⟩
    intro OS htext
    have hp : predicateOf (StringMap.subscript Map M) ≠ PredicateBody.switchCases [] := by
      intro hp
      have := h3 [] hp
      simp at this
    apply text_ne_empty_switch _ hp
    rw [emitDefinition_eq] at htext
    have hdata := congrArg String.data htext
    apply String.ext
    simp only [PredicateBody.text, String.append_assoc, String.data_append, List.map_nil,
      String.join, List.foldl_nil, String.empty_append] at hdata ⊢
    exact List.append_cancel_left (List.append_cancel_left (List.append_cancel_left
      (List.append_cancel_left hdata)))

/-- The no-empty-group theorem on the map of the example input. -/
theorem no_empty_group_witness :
    MnemonicToCGInstrMap exampleGetMnemonic 0 exampleInstructions = .ok exampleMap ∧
    ((∀ G ∈ exampleMap, G.2 ≠ []) ∧
    ∀ M ∈ StringMap.keys insertionOrder exampleMap,
      StringMap.subscript exampleMap M ≠ [] ∧
      ((StringMap.subscript exampleMap M).length ≠ 1 →
        2 ≤ (StringMap.subscript exampleMap M).length) ∧
      (∀ Labels : List String,
        predicateOf (StringMap.subscript exampleMap M) = PredicateBody.switchCases Labels →
          2 ≤ Labels.length) ∧
      ∀ OS : String, emitDefinition exampleMap OS M ≠
        OS ++ "bool is" ++ M ++ "(unsigned Opcode) \x7b\n" ++
          "\tswitch (Opcode) \x7b\n" ++
          "\t\treturn true;\n\t\x7d\n\treturn false;\n\x7d\n\n") :=
  ⟨exampleMap_built,
    no_empty_group insertionOrder exampleGetMnemonic 0 exampleInstructions exampleMap
      exampleMap_built⟩

/-! ## The empty result -/

/-- On an input of which nothing passes the filter the loop leaves the map
empty, whatever the derivation function. -/
theorem groupLoop_none_pass {ε : Type} (getMnemonic : CodeGenInstruction → Nat → Except ε String)
    (Variant : Nat) (l : List CodeGenInstruction) (Map0 : StringMap)
    (hnone : ∀ D ∈ l, passesFilter D = false) :
    groupLoop getMnemonic Variant l Map0 = .ok Map0 := by
  induction l with
  | nil => rfl
  | cons I rest ih =>
    have hI : ¬ passesFilter I = true := by
      rw [hnone I (List.mem_cons_self _ _)]
      exact Bool.false_ne_true
    rw [groupLoop_cons_skip getMnemonic Variant I rest Map0 hI]
    exact ih (fun D hD => hnone D (List.mem_cons_of_mem _ hD))

theorem derivationCalls_none_pass {ε : Type}
    (getMnemonic : CodeGenInstruction → Nat → Except ε String)
    (Variant : Nat) (l : List CodeGenInstruction)
    (hnone : ∀ D ∈ l, passesFilter D = false) :
    derivationCalls getMnemonic Variant l = [] := by
  induction l with
  | nil => rfl
  | cons I rest ih =>
    have hI : ¬ passesFilter I = true := by
      rw [hnone I (List.mem_cons_self _ _)]
      exact Bool.false_ne_true
    rw [derivationCalls_cons_skip getMnemonic Variant I rest hI]
    exact ih (fun D hD => hnone D (List.mem_cons_of_mem _ hD))

theorem keys_nil (ord : IterationOrder) : StringMap.keys ord [] = [] :=
  List.Perm.eq_nil (ord.perm [])

/-- C15, empty result: on an input of which no descriptor passes the filter,
the empty input included, the run completes, whatever the derivation function,
and the stream holds after it what it held before followed by the file header,
the namespace opener, the first guard with its `#endif`, the second guard with
its `#endif` and the namespace closer, with no declaration and no definition
between them; the derivation function is not called and the map is empty. -/
theorem empty_result {ε : Type} (emitSourceFileHeader : String → String)
    (ord : IterationOrder) (getMnemonic : CodeGenInstruction → Nat → Except ε String)
    (Variant : Nat) (l : List CodeGenInstruction) (OS : String)
    (hnone : ∀ D ∈ l, passesFilter D = false) :
    run emitSourceFileHeader ord getMnemonic Variant l OS =
        ⟨OS ++ emitSourceFileHeader "X86 Mnemonic tables" ++
          "namespace llvm \x7b\nnamespace X86 \x7b\n\n" ++
          "#ifdef GET_X86_MNEMONIC_TABLES_H\n" ++
          "#undef GET_X86_MNEMONIC_TABLES_H\n\n" ++
          "#endif // GET_X86_MNEMONIC_TABLES_H\n\n" ++
          "#ifdef GET_X86_MNEMONIC_TABLES_CPP\n" ++
          "#undef GET_X86_MNEMONIC_TABLES_CPP\n\n" ++
          "#endif // GET_X86_MNEMONIC_TABLES_CPP\n\n" ++
          "\x7d // end namespace X86\n\x7d // end namespace llvm", none⟩ ∧
      derivationCalls getMnemonic Variant l = [] ∧
      MnemonicToCGInstrMap getMnemonic Variant l = .ok [] := by
  have hMap : MnemonicToCGInstrMap getMnemonic Variant l = .ok [] :=
    groupLoop_none_pass getMnemonic Variant l [] hnone
  refine ⟨?_, derivationCalls_none_pass getMnemonic Variant l hnone, hMap⟩
  rw [run_of_ok emitSourceFileHeader ord getMnemonic Variant l OS [] hMap, keys_nil]
  simp only [List.map_nil, String.join, List.foldl_nil, String.append_empty]

/-- The empty-result theorem on an input that is a single prefix byte, with a
derivation function that would fail on it. -/
theorem empty_result_witness :
    (∀ D ∈ [exampleRexByte], passesFilter D = false) ∧
    exampleGetMnemonic exampleRexByte 0 = .error "no mnemonic for REX_PREFIX" ∧
    (run exampleHeader insertionOrder exampleGetMnemonic 0 [exampleRexByte] "" =
        ⟨"" ++ exampleHeader "X86 Mnemonic tables" ++
          "namespace llvm \x7b\nnamespace X86 \x7b\n\n" ++
          "#ifdef GET_X86_MNEMONIC_TABLES_H\n" ++
          "#undef GET_X86_MNEMONIC_TABLES_H\n\n" ++
          "#endif // GET_X86_MNEMONIC_TABLES_H\n\n" ++
          "#ifdef GET_X86_MNEMONIC_TABLES_CPP\n" ++
          "#undef GET_X86_MNEMONIC_TABLES_CPP\n\n" ++
          "#endif // GET_X86_MNEMONIC_TABLES_CPP\n\n" ++
          "\x7d // end namespace X86\n\x7d // end namespace llvm", none⟩ ∧
      derivationCalls exampleGetMnemonic 0 [exampleRexByte] = [] ∧
      MnemonicToCGInstrMap exampleGetMnemonic 0 [exampleRexByte] = .ok []) :=
  ⟨by decide, rfl,
    empty_result exampleHeader insertionOrder exampleGetMnemonic 0 [exampleRexByte] ""
      (by decide)⟩

end X86MnemonicTables
